import Mathlib

/-!
Verification of the compact binary document representation
(src/schema/document/default_document.rs) and the multi-valued fast-field
reader (src/fastfield/multivalued/reader.rs) of the tantivy repository.

The byte arena is embedded as a `List Nat` of bytes; stateful appends become
explicit state passing; Rust panics (slice-index violations, `unwrap` on
`io::Result`) are embedded as explicit error constructors of `Except`.
Primitive serializers living in the repository's `common` crate
(`serialize_vint_u32`, `read_u32_vint`, `BinarySerializable` for fixed-width
integers) are not under src/ and are modelled from the spec where noted.
-/

namespace Tantivy

/-- Byte arena backing one document (Rust: `CompactDoc.node_data : Vec<u8>`). -/
abbrev Arena := List Nat

/-! ## Variable-length integer codec

Modelled from the spec: the `common` crate's `serialize_vint_u32` /
`read_u32_vint_no_advance` / `read_u32_vint` are not under src/; the spec
says "A standard unsigned variable-length integer scheme for all length
prefixes and position-table entries (any round-trippable LEB128-style
encoding suffices)". We use LEB128: low 7 bits per byte, high bit set on
all but the final byte. -/

/-- LEB128 encoding worker, structurally recursive on a fuel argument so the
kernel can evaluate it; `n` itself is always a sufficient fuel since the
remaining value shrinks by a factor of 128 each step. -/
def vintEncodeAux : Nat → Nat → List Nat
  | 0, n => [n]
  | fuel + 1, n =>
    if n < 128 then [n]
    else (n % 128 + 128) :: vintEncodeAux fuel (n / 128)

/-- LEB128 encoding of an unsigned integer (spec-modelled vint). -/
def vintEncode (n : Nat) : List Nat := vintEncodeAux n n

/-- LEB128 decoding returning the value and the number of bytes consumed
(spec-modelled `read_u32_vint_no_advance`). -/
def readVint : List Nat → Option (Nat × Nat)
  | [] => none
  | b :: rest =>
    if b < 128 then some (b, 1)
    else
      match readVint rest with
      | some (v, k) => some ((b - 128) + 128 * v, k + 1)
      | none => none

/-- LEB128 decoding that advances past the consumed bytes (spec-modelled
`read_u32_vint`, which advances the slice it reads from). -/
def readVintAdvance : List Nat → Option (Nat × List Nat)
  | [] => none
  | b :: rest =>
    if b < 128 then some (b, rest)
    else
      match readVintAdvance rest with
      | some (v, rest') => some ((b - 128) + 128 * v, rest')
      | none => none

/-- Little-endian fixed-width byte encoding of an unsigned integer.
Modelled from the spec: fixed-width leaves use "a consistent binary form";
only intra-arena self-consistency is required, so the byte order is a
model choice. -/
def leBytes : Nat → Nat → List Nat
  | 0, _ => []
  | w + 1, n => n % 256 :: leBytes w (n / 256)

/-- Little-endian fixed-width byte decoding. -/
def leDecode : List Nat → Nat
  | [] => 0
  | b :: rest => b + 256 * leDecode rest

/-- Two's-complement encoding of a signed 64-bit integer into a `Nat`
(the bit pattern), as Rust writes `i64` bytes. -/
def i64ToNat (i : Int) : Nat := (i % (2 ^ 64)).toNat

/-- Two's-complement decoding of a 64-bit pattern back to the integer. -/
def decodeI64 (n : Nat) : Int :=
  if n < 2 ^ 63 then (n : Int) else (n : Int) - 2 ^ 64

/-! ## Value types and addresses (default_document.rs) -/

/-- Rust `ValueType`: the closed 13-kind enumeration with discriminants 0-12. -/
inductive ValueType where
  | null
  | str
  | u64
  | i64
  | f64
  | date
  | facet
  | bytes
  | ipAddr
  | bool
  | preTokStr
  | obj
  | arr
deriving DecidableEq, Repr

/-- Discriminant of a `ValueType`, as declared by `#[repr(u8)]` in the source. -/
def ValueType.toNat : ValueType → Nat
  | .null => 0
  | .str => 1
  | .u64 => 2
  | .i64 => 3
  | .f64 => 4
  | .date => 5
  | .facet => 6
  | .bytes => 7
  | .ipAddr => 8
  | .bool => 9
  | .preTokStr => 10
  | .obj => 11
  | .arr => 12

/-- Decode errors of the extraction path. Rust returns typed `io::Error`s on
cursor-based reads (`truncated`, `malformedVint`, `unknownTag`); slice-index
violations and `unwrap`s abort the process and are embedded as `panic`;
`fuelOut` is a model artifact of the fueled recursion, never reached with
sufficient fuel. -/
inductive DecErr where
  | panic
  | truncated
  | malformedVint
  | unknownTag
  | fuelOut
deriving DecidableEq, Repr

/-- True for the errors that Rust surfaces as a typed `io::Error` return
value (as opposed to a process abort). -/
def DecErr.isTypedFault : DecErr → Bool
  | .truncated => true
  | .malformedVint => true
  | .unknownTag => true
  | _ => false

/-- Rust `ValueType::deserialize` applied to one tag byte: bytes 0-12 map to
the variant with that discriminant, everything else is a typed
`InvalidData` error (`unknownTag`). -/
def ValueType.deserializeByte (b : Nat) : Except DecErr ValueType :=
  match b with
  | 0 => .ok .null
  | 1 => .ok .str
  | 2 => .ok .u64
  | 3 => .ok .i64
  | 4 => .ok .f64
  | 5 => .ok .date
  | 6 => .ok .facet
  | 7 => .ok .bytes
  | 8 => .ok .ipAddr
  | 9 => .ok .bool
  | 10 => .ok .preTokStr
  | 11 => .ok .obj
  | 12 => .ok .arr
  | _ => .error .unknownTag

/-- Decidable equality for `Except` results, used to settle concrete decode
outcomes by evaluation. -/
instance {e a : Type} [DecidableEq e] [DecidableEq a] : DecidableEq (Except e a) := fun x y =>
  match x, y with
  | .ok v, .ok w =>
    match decEq v w with
    | isTrue h => isTrue (by rw [h])
    | isFalse h => isFalse (by intro hc; injection hc; contradiction)
  | .error v, .error w =>
    match decEq v w with
    | isTrue h => isTrue (by rw [h])
    | isFalse h => isFalse (by intro hc; injection hc; contradiction)
  | .ok _, .error _ => isFalse (by intro hc; exact Except.noConfusion hc)
  | .error _, .ok _ => isFalse (by intro hc; exact Except.noConfusion hc)

/-- Construction errors. `arenaOverflow` is the `InvalidInput` error built by
`Addr::from_u32` when an offset reaches 2^24 (the enclosing `ValueAddr::new`
unwraps it, aborting the add call: embedded as an `Except` error);
`fieldIdOverflow` is the `expect` failure on a field id above `u16::MAX`. -/
inductive AddErr where
  | arenaOverflow
  | fieldIdOverflow
deriving DecidableEq, Repr

/-- Rust `ValueAddr`: a type tag plus the 3-byte offset (`Addr`). The `val`
field holds the offset as a `Nat`; `ValueAddr.new` enforces `val < 2^24`
exactly as `Addr::from_u32` does. For `bool` and `null` the offset field
holds the inlined scalar instead of an arena offset. -/
structure ValueAddr where
  type_id : ValueType
  val : Nat
deriving DecidableEq, Repr

/-- Rust `Addr::from_u32` composed with `ValueAddr::new`: fails (the source
unwraps, i.e. panics with the `ArenaOverflow` error) when the offset does
not fit in 3 bytes. -/
def ValueAddr.new (t : ValueType) (v : Nat) : Except AddErr ValueAddr :=
  if v < 2 ^ 24 then .ok ⟨t, v⟩ else .error .arenaOverflow

/-- Serialized 4-byte form of a `ValueAddr`: tag byte plus the 3 big-endian
offset bytes (Rust `BinarySerializable for ValueAddr`). -/
def ValueAddr.toBytes (a : ValueAddr) : List Nat :=
  [a.type_id.toNat, a.val / 65536 % 256, a.val / 256 % 256, a.val % 256]

/-- Rust `ValueAddr::deserialize` followed by `.ok()` as used by the object
and array iterators: reads the tag byte (rejecting tags above 12) and three
big-endian offset bytes; any failure collapses to `none`. -/
def ValueAddr.deser (data : List Nat) : Option ValueAddr :=
  match data with
  | b0 :: b1 :: b2 :: b3 :: _ =>
    match ValueType.deserializeByte b0 with
    | .ok t => some ⟨t, b1 * 65536 + b2 * 256 + b3⟩
    | .error _ => none
  | _ => none

/-! ## The value tree (Rust `ReferenceValue` / `ReferenceValueLeaf`)

Strings, facets, byte blobs and pre-tokenized strings are carried as their
raw byte payloads (`List Nat`): the source stores `str::as_bytes` and reads
them back without transformation, so byte lists are the faithful carrier.
`f64` is carried as its 64-bit pattern, `i64`/`date` as an `Int`,
`ipAddr` as the 128-bit unsigned form. -/

/-- Rust `ReferenceValueLeaf`: the eleven leaf kinds. -/
inductive RefLeaf where
  | null
  | str (bs : List Nat)
  | u64 (n : Nat)
  | i64 (n : Int)
  | f64 (bits : Nat)
  | date (nanos : Int)
  | facet (bs : List Nat)
  | bytes (bs : List Nat)
  | ipAddr (n : Nat)
  | bool (b : Bool)
  | preTokStr (bs : List Nat)
deriving DecidableEq, Repr

/-- Rust `ReferenceValue`: a leaf, an array of values, or an object of
(key, value) entries, in insertion order. -/
inductive CValue where
  | leaf (l : RefLeaf)
  | arr (elems : List CValue)
  | obj (entries : List (List Nat × CValue))

/-- Leaf kinds whose value is packed into the address's offset field and
which therefore write no arena bytes (`Bool` and `Null`). -/
def CValue.isInline : CValue → Bool
  | .leaf .null => true
  | .leaf (.bool _) => true
  | _ => false

/-- Rust `write_bytes_into`: append a vint length prefix and the bytes,
returning the arena position where the prefix starts. -/
def writeBytesInto (arena : Arena) (bs : List Nat) : Arena × Nat :=
  (arena ++ vintEncode bs.length ++ bs, arena.length)

/-- Rust `write_into`: append already-serialized bytes, returning the arena
position where they start. -/
def writeInto (arena : Arena) (payload : List Nat) : Arena × Nat :=
  (arena ++ payload, arena.length)

/-- Rust `CompactDoc::add_value_leaf`: write the leaf's payload (if any) and
build the tagged address. Bool and null write nothing: their value is the
offset field itself. -/
def addValueLeaf (arena : Arena) (l : RefLeaf) : Except AddErr (Arena × ValueAddr) :=
  match l with
  | .null => (ValueAddr.new .null 0).map (arena, ·)
  | .str bs =>
    let (a, pos) := writeBytesInto arena bs
    (ValueAddr.new .str pos).map (a, ·)
  | .facet bs =>
    let (a, pos) := writeBytesInto arena bs
    (ValueAddr.new .facet pos).map (a, ·)
  | .bytes bs =>
    let (a, pos) := writeBytesInto arena bs
    (ValueAddr.new .bytes pos).map (a, ·)
  | .u64 n =>
    let (a, pos) := writeInto arena (leBytes 8 n)
    (ValueAddr.new .u64 pos).map (a, ·)
  | .i64 n =>
    let (a, pos) := writeInto arena (leBytes 8 (i64ToNat n))
    (ValueAddr.new .i64 pos).map (a, ·)
  | .f64 bits =>
    let (a, pos) := writeInto arena (leBytes 8 bits)
    (ValueAddr.new .f64 pos).map (a, ·)
  | .bool b => (ValueAddr.new .bool (if b then 1 else 0)).map (arena, ·)
  | .date nanos =>
    let (a, pos) := writeInto arena (leBytes 8 (i64ToNat nanos))
    (ValueAddr.new .date pos).map (a, ·)
  | .ipAddr n =>
    let (a, pos) := writeInto arena (leBytes 16 n)
    (ValueAddr.new .ipAddr pos).map (a, ·)
  | .preTokStr bs =>
    let (a, pos) := writeInto arena (vintEncode bs.length ++ bs)
    (ValueAddr.new .preTokStr pos).map (a, ·)

mutual

/-- Rust `CompactDoc::add_value`: leaves via `add_value_leaf`; arrays and
objects recursively encode children, collect a vint position table, then
append the length-prefixed table and tag its address. -/
def addValue (arena : Arena) (v : CValue) : Except AddErr (Arena × ValueAddr) :=
  match v with
  | .leaf l => addValueLeaf arena l
  | .arr elems => do
    let (arena1, positions) ← addElems arena elems []
    let (arena2, pos) := writeBytesInto arena1 positions
    (ValueAddr.new .arr pos).map (arena2, ·)
  | .obj entries => do
    let (arena1, positions) ← addEntries arena entries []
    let (arena2, pos) := writeBytesInto arena1 positions
    (ValueAddr.new .obj pos).map (arena2, ·)

/-- Loop body of the array branch of `add_value`: encode each element, record
the position of its serialized `ValueAddr` (as a vint) in the positions
buffer, then write the 4 address bytes. -/
def addElems (arena : Arena) (elems : List CValue) (positions : List Nat) :
    Except AddErr (Arena × List Nat) :=
  match elems with
  | [] => .ok (arena, positions)
  | e :: rest => do
    let (arena1, refElem) ← addValue arena e
    let positions' := positions ++ vintEncode arena1.length
    let (arena2, _) := writeInto arena1 refElem.toBytes
    addElems arena2 rest positions'

/-- Loop body of the object branch of `add_value`: encode the key as a `Str`
leaf and the value recursively, record the position where both address
records get written, then write the two 4-byte addresses. -/
def addEntries (arena : Arena) (entries : List (List Nat × CValue)) (positions : List Nat) :
    Except AddErr (Arena × List Nat) :=
  match entries with
  | [] => .ok (arena, positions)
  | (k, v) :: rest => do
    let (arena1, refKey) ← addValueLeaf arena (.str k)
    let (arena2, refVal) ← addValue arena1 v
    let positions' := positions ++ vintEncode arena2.length
    let (arena3, _) := writeInto arena2 refKey.toBytes
    let (arena4, _) := writeInto arena3 refVal.toBytes
    addEntries arena4 rest positions'

end

/-- Rust `CompactDoc`: the byte arena plus the root list of
(16-bit field id, address) pairs. -/
structure CompactDoc where
  node_data : Arena
  field_values : List (Nat × ValueAddr)
deriving Repr

/-- Rust `CompactDoc::add_field_value`: the field id is converted to `u16`
first (an id above 65535 aborts via `expect`, embedded as
`fieldIdOverflow`), then the value is encoded and the pair appended to the
root table. -/
def addFieldValue (doc : CompactDoc) (fid : Nat) (v : CValue) : Except AddErr CompactDoc :=
  if fid < 65536 then do
    let (arena', va) ← addValue doc.node_data v
    .ok ⟨arena', doc.field_values ++ [(fid, va)]⟩
  else .error .fieldIdOverflow

/-- Trace of a sequence of `add_value` calls on one document: for each call,
the value, the returned address, and the arena length right after the call. -/
def addValuesTrace (arena : Arena) : List CValue →
    Except AddErr (Arena × List (CValue × ValueAddr × Nat))
  | [] => .ok (arena, [])
  | v :: vs => do
    let (arena1, a) ← addValue arena v
    let (arenaF, rest) ← addValuesTrace arena1 vs
    .ok (arenaF, (v, a, arena1.length) :: rest)

/-! ## Extraction (the lazy decoder, materialized with fuel)

Rust `extract_ref_value` returns borrowed views and lazy iterators; the
embedding materializes the full tree, spending one unit of fuel per
recursion step. Rust slice indexing `&data[start..]` panics when
`start > data.len()`; that panic is the `DecErr.panic` branch below. -/

/-- Rust `CompactDoc::get_slice`: `&node_data[start..]`, a panic when the
offset lies beyond the arena. -/
def getSliceE (arena : Arena) (start : Nat) : Except DecErr (List Nat) :=
  if start ≤ arena.length then .ok (arena.drop start) else .error .panic

/-- Rust `binary_deserialize_bytes`: read the vint length prefix, then slice
`data[bytes_read..bytes_read+len]` (a panic when the payload is truncated). -/
def binaryDeserializeBytesE (data : List Nat) : Except DecErr (List Nat) :=
  match readVint data with
  | none => .error .malformedVint
  | some (len, k) =>
    if k + len ≤ data.length then .ok ((data.drop k).take len) else .error .panic

/-- Rust `CompactDoc::read_from` for a fixed-width payload: `&node_data[start..]`
(panic when out of range) followed by a cursor read of `width` bytes, which
returns a typed unexpected-EOF error when truncated. -/
def readFixed (arena : Arena) (start width : Nat) : Except DecErr (List Nat) :=
  if start ≤ arena.length then
    if width ≤ arena.length - start then .ok ((arena.drop start).take width)
    else .error .truncated
  else .error .panic

/-- Rust `CompactDoc::read_from::<PreTokenizedString>`: `&node_data[start..]`
(panic when out of range) followed by cursor reads of the vint length and
the payload, both of which return typed errors when truncated. -/
def readVarCursor (arena : Arena) (start : Nat) : Except DecErr (List Nat) :=
  if start ≤ arena.length then
    match readVint (arena.drop start) with
    | none => .error .malformedVint
    | some (len, k) =>
      if k + len ≤ arena.length - start then .ok (((arena.drop start).drop k).take len)
      else .error .truncated
  else .error .panic

/-- Rust `CompactDoc::extract_str` as used for object keys: `get_slice` plus
`binary_deserialize_str` (whose byte-level content is
`binary_deserialize_bytes`; the unchecked UTF-8 reinterpretation is the
identity on the byte payload carried here). -/
def extractStr (arena : Arena) (start : Nat) : Except DecErr (List Nat) := do
  let s ← getSliceE arena start
  binaryDeserializeBytesE s

mutual

/-- Rust `CompactDoc::extract_ref_value`, materialized: decode the payload
selected by the address's type tag; arrays and objects walk their
length-prefixed position table and recursively resolve every child. -/
def extractValue (arena : Arena) : Nat → ValueAddr → Except DecErr CValue
  | 0, _ => .error .fuelOut
  | fuel + 1, va =>
    match va.type_id with
    | .null => .ok (.leaf .null)
    | .str => do
      let s ← getSliceE arena va.val
      let bs ← binaryDeserializeBytesE s
      .ok (.leaf (.str bs))
    | .facet => do
      let s ← getSliceE arena va.val
      let bs ← binaryDeserializeBytesE s
      .ok (.leaf (.facet bs))
    | .bytes => do
      let s ← getSliceE arena va.val
      let bs ← binaryDeserializeBytesE s
      .ok (.leaf (.bytes bs))
    | .u64 => do
      let bs ← readFixed arena va.val 8
      .ok (.leaf (.u64 (leDecode bs)))
    | .i64 => do
      let bs ← readFixed arena va.val 8
      .ok (.leaf (.i64 (decodeI64 (leDecode bs))))
    | .f64 => do
      let bs ← readFixed arena va.val 8
      .ok (.leaf (.f64 (leDecode bs)))
    | .date => do
      let bs ← readFixed arena va.val 8
      .ok (.leaf (.date (decodeI64 (leDecode bs))))
    | .ipAddr => do
      let bs ← readFixed arena va.val 16
      .ok (.leaf (.ipAddr (leDecode bs)))
    | .bool => .ok (.leaf (.bool (decide (va.val ≠ 0))))
    | .preTokStr => do
      let bs ← readVarCursor arena va.val
      .ok (.leaf (.preTokStr bs))
    | .arr => do
      let s ← getSliceE arena va.val
      let ps ← binaryDeserializeBytesE s
      let es ← extractArr arena fuel ps
      .ok (.arr es)
    | .obj => do
      let s ← getSliceE arena va.val
      let ps ← binaryDeserializeBytesE s
      let es ← extractObj arena fuel ps
      .ok (.obj es)

/-- Rust `CompactDocArrayIter`, materialized: read one vint position from the
table slice, deserialize the `ValueAddr` stored there (`&node_data[i..]`
panics when the position is out of range; a failed address deserialization
ends the iterator via `.ok()?`), resolve the child, continue. -/
def extractArr (arena : Arena) : Nat → List Nat → Except DecErr (List CValue)
  | 0, _ => .error .fuelOut
  | fuel + 1, pslice =>
    match pslice with
    | [] => .ok []
    | _ :: _ =>
      match readVintAdvance pslice with
      | none => .error .malformedVint
      | some (keyIndex, rest) =>
        if keyIndex ≤ arena.length then
          match ValueAddr.deser (arena.drop keyIndex) with
          | none => .ok []
          | some va => do
            let v ← extractValue arena fuel va
            let vs ← extractArr arena fuel rest
            .ok (v :: vs)
        else .error .panic

/-- Rust `CompactDocObjectIter`, materialized: like the array iterator, but
each table position holds a key address followed by a value address; the
key is resolved through `extract_str`. -/
def extractObj (arena : Arena) : Nat → List Nat → Except DecErr (List (List Nat × CValue))
  | 0, _ => .error .fuelOut
  | fuel + 1, pslice =>
    match pslice with
    | [] => .ok []
    | _ :: _ =>
      match readVintAdvance pslice with
      | none => .error .malformedVint
      | some (keyIndex, rest) =>
        if keyIndex ≤ arena.length then
          match ValueAddr.deser (arena.drop keyIndex) with
          | none => .ok []
          | some keyAddr => do
            let key ← extractStr arena keyAddr.val
            match ValueAddr.deser ((arena.drop keyIndex).drop 4) with
            | none => .ok []
            | some valAddr => do
              let v ← extractValue arena fuel valAddr
              let es ← extractObj arena fuel rest
              .ok ((key, v) :: es)
        else .error .panic

end

mutual

/-- Fuel bound sufficient to fully extract an encoded value. -/
def csize : CValue → Nat
  | .leaf _ => 1
  | .arr es => 1 + csizeL es
  | .obj en => 1 + csizeE en

/-- Fuel bound for extracting an array's elements. -/
def csizeL : List CValue → Nat
  | [] => 1
  | e :: rest => 1 + csize e + csizeL rest

/-- Fuel bound for extracting an object's entries. -/
def csizeE : List (List Nat × CValue) → Nat
  | [] => 1
  | (_, v) :: rest => 1 + csize v + csizeE rest

end

mutual

/-- Representable value trees: numeric leaves within the ranges of the Rust
types they embed, byte payloads made of actual bytes. -/
def CValue.Wf : CValue → Bool
  | .leaf .null => true
  | .leaf (.str bs) => bs.all (· < 256)
  | .leaf (.u64 n) => decide (n < 2 ^ 64)
  | .leaf (.i64 n) => decide (-(2 ^ 63) ≤ n) && decide (n < 2 ^ 63)
  | .leaf (.f64 bits) => decide (bits < 2 ^ 64)
  | .leaf (.date nanos) => decide (-(2 ^ 63) ≤ nanos) && decide (nanos < 2 ^ 63)
  | .leaf (.facet bs) => bs.all (· < 256)
  | .leaf (.bytes bs) => bs.all (· < 256)
  | .leaf (.ipAddr n) => decide (n < 2 ^ 128)
  | .leaf (.bool _) => true
  | .leaf (.preTokStr bs) => bs.all (· < 256)
  | .arr es => CValue.wfL es
  | .obj en => CValue.wfE en

/-- Representability of an element list. -/
def CValue.wfL : List CValue → Bool
  | [] => true
  | e :: rest => e.Wf && CValue.wfL rest

/-- Representability of an entry list. -/
def CValue.wfE : List (List Nat × CValue) → Bool
  | [] => true
  | (k, v) :: rest => k.all (· < 256) && v.Wf && CValue.wfE rest

end

/-! ## Multi-valued fast field reader (multivalued/reader.rs)

The offset column (`idx_reader`) is a read-only `u64` column of length
docCount+1; its point lookup `get` is embedded as a function `Nat → Nat`.
For the column-wide aggregates of claim C5 the column is a `List Nat`. -/

/-- Rust `MultiValuedFastFieldReader::range`: two point lookups in the offset
column at `doc` and `doc + 1`. -/
def mvRange (off : Nat → Nat) (doc : Nat) : Nat × Nat :=
  (off doc, off (doc + 1))

/-- Rust `MultiValuedFastFieldReader::num_vals`: `range.end - range.start`. -/
def mvNumVals (off : Nat → Nat) (doc : Nat) : Nat :=
  (mvRange off doc).2 - (mvRange off doc).1

/-- Rust inner loop of `positions_to_docids`: advance the document cursor
until its range contains the position. The Rust `loop` has no bound of its
own; the fuel argument makes the recursion structural, and the main theorem
shows the fuel `numDocs - cur` is never exhausted on sorted in-range input. -/
def findDoc (off : Nat → Nat) : Nat → Nat → Nat → Option Nat
  | 0, _, _ => none
  | fuel + 1, cur, pos =>
    if off cur ≤ pos ∧ pos < off (cur + 1) then some cur
    else findDoc off fuel (cur + 1) pos

/-- Rust outer loop of `positions_to_docids`: for each position, find its
document with the shared cursor, emit the id unless it equals the last
emitted id. -/
def p2dGo (off : Nat → Nat) (numDocs : Nat) :
    List Nat → Nat → Option Nat → List Nat
  | [], _, _ => []
  | p :: ps, cur, last =>
    match findDoc off (numDocs - cur) cur p with
    | none => []
    | some d =>
      if last = some d then p2dGo off numDocs ps d last
      else d :: p2dGo off numDocs ps d (some d)

/-- Rust `positions_to_docids`: scan starts at document 0 with no emission. -/
def positions_to_docids (off : Nat → Nat) (numDocs : Nat) (ps : List Nat) : List Nat :=
  p2dGo off numDocs ps 0 none

/-- Offset-column point lookup on the list form of the column.
Modelled from the spec: `DynamicFastFieldReader::get` is a point lookup in
a column of length docCount+1 (the reader codecs are not under src/). -/
def ffGet (offs : List Nat) (i : Nat) : Nat := offs.getD i 0

/-- Column maximum. Modelled from the spec: `idx_reader.max_value()`
aggregates over the entire column, and for the monotone offset column the
spec states totalValueCount = offset[docCount]. -/
def ffMax (offs : List Nat) : Nat := offs.foldr max 0

/-- Rust `range` on the list form of the offset column. -/
def mvRangeL (offs : List Nat) (doc : Nat) : Nat × Nat :=
  (ffGet offs doc, ffGet offs (doc + 1))

/-- Rust `num_vals` on the list form of the offset column. -/
def mvNumValsL (offs : List Nat) (doc : Nat) : Nat :=
  (mvRangeL offs doc).2 - (mvRangeL offs doc).1

/-- Rust `total_num_vals`: `idx_reader.max_value()`. -/
def mvTotalNumVals (offs : List Nat) : Nat := ffMax offs

/-- Value-column point lookup. Modelled from the spec: the u128 codec's
`get_val` returns the value at a position of the value column of length
totalValueCount, and nothing outside it. -/
def ffGetVal (valsF : Nat → Nat) (total : Nat) (pos : Nat) : Option Nat :=
  if pos < total then some (valsF pos) else none

/-- Rust `MultiValuedU128FastFieldReader::get_first_val`: `None` for an empty
range, otherwise the value-column lookup at `range.start`. -/
def getFirstVal (off : Nat → Nat) (valsF : Nat → Nat) (total : Nat) (doc : Nat) :
    Option Nat :=
  let r := mvRange off doc
  if r.2 ≤ r.1 then none else ffGetVal valsF total r.1

/-- Rust `MultiValuedU128FastFieldReader::get_vals`. Modelled from the spec
for the codec part: `get_range` fills the resized buffer with the value
column entries at positions `range.start..range.end`. -/
def getVals (off : Nat → Nat) (valsF : Nat → Nat) (doc : Nat) : List Nat :=
  (List.range (mvNumVals off doc)).map (fun i => valsF ((mvRange off doc).1 + i))

/-! ## Codec lemmas -/

theorem vintEncodeAux_eq (fuel n : Nat) (h : n ≤ fuel) :
    vintEncodeAux fuel n =
      if n < 128 then [n] else (n % 128 + 128) :: vintEncodeAux (fuel - 1) (n / 128) := by
  induction fuel generalizing n with
  | zero =>
    have : n = 0 := by omega
    subst this
    simp [vintEncodeAux]
  | succ f ih =>
    by_cases hn : n < 128 <;> simp [vintEncodeAux, hn]

theorem vintEncodeAux_fuel_irrel (f1 : Nat) :
    ∀ f2 n, n ≤ f1 → n ≤ f2 → vintEncodeAux f1 n = vintEncodeAux f2 n := by
  induction f1 with
  | zero =>
    intro f2 n h1 _
    have : n = 0 := by omega
    subst this
    cases f2 <;> simp [vintEncodeAux]
  | succ f ih =>
    intro f2 n h1 h2
    by_cases hn : n < 128
    · cases f2 <;> simp [vintEncodeAux, hn]
    · have hd : n / 128 < n := Nat.div_lt_self (by omega) (by omega)
      cases f2 with
      | zero => omega
      | succ g =>
        simp only [vintEncodeAux, if_neg hn]
        have := ih g (n / 128) (by omega) (by omega)
        rw [this]

theorem vintEncode_eq (n : Nat) :
    vintEncode n = if n < 128 then [n] else (n % 128 + 128) :: vintEncode (n / 128) := by
  unfold vintEncode
  rw [vintEncodeAux_eq n n le_rfl]
  by_cases hn : n < 128
  · simp [hn]
  · have hd : n / 128 < n := Nat.div_lt_self (by omega) (by omega)
    simp only [if_neg hn]
    rw [vintEncodeAux_fuel_irrel (n - 1) (n / 128) (n / 128) (by omega) le_rfl]

theorem vintEncode_ne_nil (n : Nat) : vintEncode n ≠ [] := by
  rw [vintEncode_eq]
  by_cases hn : n < 128 <;> simp [hn]

theorem vintEncode_length_pos (n : Nat) : 0 < (vintEncode n).length := by
  cases h : vintEncode n with
  | nil => exact absurd h (vintEncode_ne_nil n)
  | cons a l => simp

theorem readVint_vintEncode (n : Nat) :
    ∀ rest, readVint (vintEncode n ++ rest) = some (n, (vintEncode n).length) := by
  induction n using Nat.strong_induction_on with
  | _ n ih =>
    intro rest
    rw [vintEncode_eq]
    by_cases hn : n < 128
    · simp [hn, readVint]
    · have hd : n / 128 < n := Nat.div_lt_self (by omega) (by omega)
      simp only [if_neg hn, List.cons_append, readVint, if_neg (by omega : ¬ n % 128 + 128 < 128)]
      rw [ih (n / 128) hd rest]
      simp only [List.length_cons]
      have harith : n % 128 + 128 - 128 + 128 * (n / 128) = n := by omega
      rw [harith]

theorem readVintAdvance_vintEncode (n : Nat) :
    ∀ rest, readVintAdvance (vintEncode n ++ rest) = some (n, rest) := by
  induction n using Nat.strong_induction_on with
  | _ n ih =>
    intro rest
    rw [vintEncode_eq]
    by_cases hn : n < 128
    · simp [hn, readVintAdvance]
    · have hd : n / 128 < n := Nat.div_lt_self (by omega) (by omega)
      simp only [if_neg hn, List.cons_append, readVintAdvance,
        if_neg (by omega : ¬ n % 128 + 128 < 128)]
      rw [ih (n / 128) hd rest]
      simp
      omega

theorem leBytes_length (w : Nat) : ∀ n, (leBytes w n).length = w := by
  induction w with
  | zero => intro n; simp [leBytes]
  | succ v ih => intro n; simp [leBytes, ih]

theorem leDecode_leBytes (w : Nat) : ∀ n, n < 256 ^ w → leDecode (leBytes w n) = n := by
  induction w with
  | zero =>
    intro n h
    simp only [pow_zero, Nat.lt_one_iff] at h
    simp [h, leBytes, leDecode]
  | succ v ih =>
    intro n h
    have hdiv : n / 256 < 256 ^ v := by
      rw [Nat.div_lt_iff_lt_mul (by omega)]
      calc n < 256 ^ (v + 1) := h
        _ = 256 ^ v * 256 := by ring
    simp only [leBytes, leDecode, ih (n / 256) hdiv]
    omega

theorem decodeI64_i64ToNat (i : Int) (h1 : -(2 ^ 63) ≤ i) (h2 : i < 2 ^ 63) :
    decodeI64 (i64ToNat i) = i := by
  unfold decodeI64 i64ToNat
  rcases le_or_lt 0 i with hpos | hneg
  · have hm : i % 2 ^ 64 = i := Int.emod_eq_of_lt hpos (by omega)
    rw [hm]
    have : i.toNat < 2 ^ 63 := by omega
    rw [if_pos this]
    omega
  · have hm : i % 2 ^ 64 = i + 2 ^ 64 := by omega
    rw [hm]
    have hge : ¬ (i + 2 ^ 64).toNat < 2 ^ 63 := by omega
    rw [if_neg hge]
    omega

theorem i64ToNat_lt (i : Int) : i64ToNat i < 2 ^ 64 := by
  unfold i64ToNat
  have h1 : 0 ≤ i % 2 ^ 64 := Int.emod_nonneg i (by norm_num)
  have h2 : i % 2 ^ 64 < 2 ^ 64 := Int.emod_lt_of_pos i (by norm_num)
  omega

theorem ValueType.deserializeByte_toNat (t : ValueType) :
    ValueType.deserializeByte t.toNat = .ok t := by
  cases t <;> rfl

theorem ValueAddr.deser_toBytes (a : ValueAddr) (h : a.val < 2 ^ 24) :
    ∀ rest, ValueAddr.deser (a.toBytes ++ rest) = some a := by
  intro rest
  simp only [ValueAddr.toBytes, List.cons_append, ValueAddr.deser,
    ValueType.deserializeByte_toNat]
  congr 1
  have : a.val / 65536 % 256 * 65536 + a.val / 256 % 256 * 256 + a.val % 256 = a.val := by
    omega
  calc (⟨a.type_id, a.val / 65536 % 256 * 65536 + a.val / 256 % 256 * 256 + a.val % 256⟩ :
      ValueAddr) = ⟨a.type_id, a.val⟩ := by rw [this]
    _ = a := rfl

/-! ## Encoder invariants: append-only growth and 3-byte offsets -/

theorem valueAddrNew_map_ok {α : Type} (f : ValueAddr → α) (t : ValueType) (p : Nat) (x : α)
    (h : (ValueAddr.new t p).map f = .ok x) : p < 2 ^ 24 ∧ x = f ⟨t, p⟩ := by
  unfold ValueAddr.new at h
  by_cases hp : p < 2 ^ 24
  · refine ⟨hp, ?_⟩
    rw [if_pos hp] at h
    simp only [Except.map] at h
    exact (Except.ok.inj h).symm
  · rw [if_neg hp] at h
    simp only [Except.map] at h
    exact absurd h (by simp)

theorem addValueLeaf_ok (arena : Arena) (l : RefLeaf) (arena' : Arena) (a : ValueAddr)
    (h : addValueLeaf arena l = .ok (arena', a)) :
    arena <+: arena' ∧ a.val < 2 ^ 24 := by
  cases l <;>
    simp only [addValueLeaf, writeBytesInto, writeInto] at h <;>
    obtain ⟨hp, hx⟩ := valueAddrNew_map_ok _ _ _ _ h <;>
    obtain ⟨h1, h2⟩ := Prod.mk.injEq .. ▸ hx <;>
    subst h1 <;> subst h2 <;>
    refine ⟨?_, hp⟩ <;>
    first
      | exact List.prefix_rfl
      | exact List.prefix_append _ _
      | (rw [List.append_assoc]; exact List.prefix_append _ _)

mutual

/-- Encoding is append-only and returned offsets fit in 3 bytes. -/
theorem addValue_ok (arena : Arena) (v : CValue) (arena' : Arena) (a : ValueAddr)
    (h : addValue arena v = .ok (arena', a)) :
    arena <+: arena' ∧ a.val < 2 ^ 24 := by
  cases v with
  | leaf l => exact addValueLeaf_ok arena l arena' a h
  | arr elems =>
    rw [addValue] at h
    cases haE : addElems arena elems [] with
    | error e => rw [haE] at h; exact absurd h (by simp [Bind.bind, Except.bind])
    | ok pr =>
      obtain ⟨arena1, positions⟩ := pr
      rw [haE] at h
      simp only [Bind.bind, Except.bind, writeBytesInto] at h
      obtain ⟨hp, hx⟩ := valueAddrNew_map_ok _ _ _ _ h
      obtain ⟨h1, h2⟩ := Prod.mk.injEq .. ▸ hx
      subst h1; subst h2
      have hg := addElems_ok arena elems [] arena1 positions haE
      refine ⟨hg.trans ?_, hp⟩
      rw [List.append_assoc]
      exact List.prefix_append _ _
  | obj entries =>
    rw [addValue] at h
    cases haE : addEntries arena entries [] with
    | error e => rw [haE] at h; exact absurd h (by simp [Bind.bind, Except.bind])
    | ok pr =>
      obtain ⟨arena1, positions⟩ := pr
      rw [haE] at h
      simp only [Bind.bind, Except.bind, writeBytesInto] at h
      obtain ⟨hp, hx⟩ := valueAddrNew_map_ok _ _ _ _ h
      obtain ⟨h1, h2⟩ := Prod.mk.injEq .. ▸ hx
      subst h1; subst h2
      have hg := addEntries_ok arena entries [] arena1 positions haE
      refine ⟨hg.trans ?_, hp⟩
      rw [List.append_assoc]
      exact List.prefix_append _ _

/-- Element encoding is append-only. -/
theorem addElems_ok (arena : Arena) (elems : List CValue) (positions : List Nat)
    (arenaF : Arena) (positionsF : List Nat)
    (h : addElems arena elems positions = .ok (arenaF, positionsF)) :
    arena <+: arenaF := by
  cases elems with
  | nil =>
    simp only [addElems] at h
    obtain ⟨h1, h2⟩ := Prod.mk.injEq .. ▸ (Except.ok.inj h)
    rw [← h1]
  | cons e rest =>
    rw [addElems] at h
    cases haV : addValue arena e with
    | error err => rw [haV] at h; exact absurd h (by simp [Bind.bind, Except.bind])
    | ok pr =>
      obtain ⟨arena1, refElem⟩ := pr
      rw [haV] at h
      simp only [Bind.bind, Except.bind, writeInto] at h
      have h1 := (addValue_ok arena e arena1 refElem haV).1
      have h2 := addElems_ok (arena1 ++ refElem.toBytes) rest
        (positions ++ vintEncode arena1.length) arenaF positionsF h
      exact h1.trans ((List.prefix_append _ _).trans h2)

/-- Entry encoding is append-only. -/
theorem addEntries_ok (arena : Arena) (entries : List (List Nat × CValue))
    (positions : List Nat) (arenaF : Arena) (positionsF : List Nat)
    (h : addEntries arena entries positions = .ok (arenaF, positionsF)) :
    arena <+: arenaF := by
  cases entries with
  | nil =>
    simp only [addEntries] at h
    obtain ⟨h1, h2⟩ := Prod.mk.injEq .. ▸ (Except.ok.inj h)
    rw [← h1]
  | cons kv rest =>
    obtain ⟨k, v⟩ := kv
    rw [addEntries] at h
    cases haK : addValueLeaf arena (.str k) with
    | error err => rw [haK] at h; exact absurd h (by simp [Bind.bind, Except.bind])
    | ok prK =>
      obtain ⟨arena1, refKey⟩ := prK
      rw [haK] at h
      simp only [Bind.bind, Except.bind] at h
      cases haV : addValue arena1 v with
      | error err => rw [haV] at h; exact absurd h (by simp [Bind.bind, Except.bind])
      | ok prV =>
        obtain ⟨arena2, refVal⟩ := prV
        rw [haV] at h
        simp only [Bind.bind, Except.bind, writeInto] at h
        have h1 := (addValueLeaf_ok arena (.str k) arena1 refKey haK).1
        have h2 := (addValue_ok arena1 v arena2 refVal haV).1
        have h3 := addEntries_ok (arena2 ++ refKey.toBytes ++ refVal.toBytes) rest
          (positions ++ vintEncode arena2.length) arenaF positionsF h
        refine h1.trans (h2.trans (List.IsPrefix.trans ?_ h3))
        exact (List.prefix_append arena2 refKey.toBytes).trans
          (List.prefix_append (arena2 ++ refKey.toBytes) refVal.toBytes)

end

/-! ## Reading back written payloads, from any extension of the arena -/

theorem ValueAddr.toBytes_length (a : ValueAddr) : a.toBytes.length = 4 := rfl

theorem getSliceE_written (arena δ : Arena) :
    getSliceE (arena ++ δ) arena.length = .ok δ := by
  unfold getSliceE
  rw [if_pos (by simp), List.drop_left]

theorem binaryDeserializeBytesE_written (bs tail : List Nat) :
    binaryDeserializeBytesE (vintEncode bs.length ++ (bs ++ tail)) = .ok bs := by
  unfold binaryDeserializeBytesE
  rw [readVint_vintEncode]
  have hle : (vintEncode bs.length).length + bs.length ≤
      (vintEncode bs.length ++ (bs ++ tail)).length := by
    simp only [List.length_append]
    omega
  simp [hle, List.drop_left, List.take_left]

theorem extractStr_written (arena : Arena) (bs : List Nat) (tail : List Nat) :
    extractStr (arena ++ (vintEncode bs.length ++ (bs ++ tail))) arena.length = .ok bs := by
  unfold extractStr
  rw [getSliceE_written]
  simp only [Bind.bind, Except.bind]
  exact binaryDeserializeBytesE_written bs tail

theorem readFixed_written (arena payload tail : Arena) (w : Nat)
    (hw : payload.length = w) :
    readFixed (arena ++ (payload ++ tail)) arena.length w = .ok payload := by
  unfold readFixed
  rw [if_pos (by simp)]
  rw [if_pos (by simp; omega)]
  rw [List.drop_left, ← hw, List.take_left]

theorem readVarCursor_written (arena : Arena) (bs tail : List Nat) :
    readVarCursor (arena ++ (vintEncode bs.length ++ (bs ++ tail))) arena.length = .ok bs := by
  unfold readVarCursor
  rw [if_pos (by simp), List.drop_left, readVint_vintEncode]
  have hle : (vintEncode bs.length).length + bs.length ≤
      (arena ++ (vintEncode bs.length ++ (bs ++ tail))).length - arena.length := by
    simp only [List.length_append]
    omega
  simp [hle, List.drop_left, List.take_left]

/-- Round trip for every leaf kind: a leaf encoded at the end of any arena is
decoded back from the returned address, whatever bytes follow later. -/
theorem addValueLeaf_extract (arena : Arena) (l : RefLeaf) (arena' : Arena) (a : ValueAddr)
    (hwf : (CValue.leaf l).Wf = true)
    (h : addValueLeaf arena l = .ok (arena', a)) (tail : List Nat) (fuel : Nat) :
    extractValue (arena' ++ tail) (fuel + 1) a = .ok (.leaf l) := by
  cases l <;>
    simp only [addValueLeaf, writeBytesInto, writeInto] at h <;>
    obtain ⟨hp, hx⟩ := valueAddrNew_map_ok _ _ _ _ h <;>
    obtain ⟨h1, h2⟩ := Prod.mk.injEq .. ▸ hx <;>
    subst h1 <;> subst h2
  case null => rfl
  case str bs =>
    simp only [extractValue, List.append_assoc]
    rw [getSliceE_written]
    simp only [Bind.bind, Except.bind]
    rw [binaryDeserializeBytesE_written]
  case u64 n =>
    simp only [extractValue, List.append_assoc]
    rw [readFixed_written _ _ _ _ (leBytes_length 8 n)]
    simp only [Bind.bind, Except.bind]
    simp only [CValue.Wf] at hwf
    rw [leDecode_leBytes 8 n (by norm_num at hwf ⊢; omega)]
  case i64 n =>
    simp only [extractValue, List.append_assoc]
    rw [readFixed_written _ _ _ _ (leBytes_length 8 (i64ToNat n))]
    simp only [Bind.bind, Except.bind]
    simp only [CValue.Wf, Bool.and_eq_true, decide_eq_true_eq] at hwf
    rw [leDecode_leBytes 8 (i64ToNat n) (by have := i64ToNat_lt n; norm_num at this ⊢; omega)]
    rw [decodeI64_i64ToNat n hwf.1 hwf.2]
  case f64 bits =>
    simp only [extractValue, List.append_assoc]
    rw [readFixed_written _ _ _ _ (leBytes_length 8 bits)]
    simp only [Bind.bind, Except.bind]
    simp only [CValue.Wf] at hwf
    rw [leDecode_leBytes 8 bits (by norm_num at hwf ⊢; omega)]
  case date nanos =>
    simp only [extractValue, List.append_assoc]
    rw [readFixed_written _ _ _ _ (leBytes_length 8 (i64ToNat nanos))]
    simp only [Bind.bind, Except.bind]
    simp only [CValue.Wf, Bool.and_eq_true, decide_eq_true_eq] at hwf
    rw [leDecode_leBytes 8 (i64ToNat nanos)
      (by have := i64ToNat_lt nanos; norm_num at this ⊢; omega)]
    rw [decodeI64_i64ToNat nanos hwf.1 hwf.2]
  case facet bs =>
    simp only [extractValue, List.append_assoc]
    rw [getSliceE_written]
    simp only [Bind.bind, Except.bind]
    rw [binaryDeserializeBytesE_written]
  case bytes bs =>
    simp only [extractValue, List.append_assoc]
    rw [getSliceE_written]
    simp only [Bind.bind, Except.bind]
    rw [binaryDeserializeBytesE_written]
  case ipAddr n =>
    simp only [extractValue, List.append_assoc]
    rw [readFixed_written _ _ _ _ (leBytes_length 16 n)]
    simp only [Bind.bind, Except.bind]
    simp only [CValue.Wf] at hwf
    rw [leDecode_leBytes 16 n (by norm_num at hwf ⊢; omega)]
  case bool b =>
    cases b <;> rfl
  case preTokStr bs =>
    simp only [extractValue, List.append_assoc]
    rw [readVarCursor_written]
    simp only [Bind.bind, Except.bind]

/-! ## One-step reduction lemmas for the fueled decoder -/

theorem extractValue_arr_step (arena1 : Arena) (positions tail : List Nat) (f : Nat) :
    extractValue (arena1 ++ (vintEncode positions.length ++ (positions ++ tail))) (f + 1)
        ⟨.arr, arena1.length⟩ =
      (extractArr (arena1 ++ (vintEncode positions.length ++ (positions ++ tail)))
          f positions).bind (fun es => .ok (.arr es)) := by
  simp only [extractValue]
  rw [getSliceE_written]
  simp only [Bind.bind, Except.bind]
  rw [binaryDeserializeBytesE_written]

theorem extractValue_obj_step (arena1 : Arena) (positions tail : List Nat) (f : Nat) :
    extractValue (arena1 ++ (vintEncode positions.length ++ (positions ++ tail))) (f + 1)
        ⟨.obj, arena1.length⟩ =
      (extractObj (arena1 ++ (vintEncode positions.length ++ (positions ++ tail)))
          f positions).bind (fun es => .ok (.obj es)) := by
  simp only [extractValue]
  rw [getSliceE_written]
  simp only [Bind.bind, Except.bind]
  rw [binaryDeserializeBytesE_written]

theorem extractArr_step (arena : Arena) (f pos : Nat) (rest : List Nat) (va : ValueAddr)
    (hlen : pos ≤ arena.length)
    (hdeser : ValueAddr.deser (arena.drop pos) = some va) :
    extractArr arena (f + 1) (vintEncode pos ++ rest) =
      (extractValue arena f va).bind (fun v =>
        (extractArr arena f rest).bind (fun vs => .ok (v :: vs))) := by
  cases hv : vintEncode pos with
  | nil => exact absurd hv (vintEncode_ne_nil _)
  | cons b bs =>
    simp only [List.cons_append, extractArr]
    rw [← List.cons_append, ← hv, readVintAdvance_vintEncode]
    simp only [hdeser]
    rw [if_pos hlen]
    rfl

theorem extractObj_step (arena : Arena) (f pos : Nat) (rest : List Nat)
    (keyAddr valAddr : ValueAddr) (k : List Nat)
    (hlen : pos ≤ arena.length)
    (hdeserK : ValueAddr.deser (arena.drop pos) = some keyAddr)
    (hkey : extractStr arena keyAddr.val = .ok k)
    (hdeserV : ValueAddr.deser ((arena.drop pos).drop 4) = some valAddr) :
    extractObj arena (f + 1) (vintEncode pos ++ rest) =
      (extractValue arena f valAddr).bind (fun v =>
        (extractObj arena f rest).bind (fun es => .ok ((k, v) :: es))) := by
  cases hv : vintEncode pos with
  | nil => exact absurd hv (vintEncode_ne_nil _)
  | cons b bs =>
    simp only [List.cons_append, extractObj]
    rw [← List.cons_append, ← hv, readVintAdvance_vintEncode]
    simp only [hdeserK, hdeserV, hkey]
    rw [if_pos hlen]
    rfl

/-! ## Round trip: extraction inverts encoding, from any extension of the
resulting arena (later appends never disturb earlier addresses) -/

mutual

/-- Any successfully encoded representable value is decoded back from its
returned address, out of the resulting arena extended by arbitrary later
bytes, for any fuel of at least `csize v`. -/
theorem addValue_extract (arena : Arena) (v : CValue) (arena' : Arena) (a : ValueAddr)
    (hwf : CValue.Wf v = true) (h : addValue arena v = .ok (arena', a)) :
    ∀ (tail : List Nat) (fuel : Nat), csize v ≤ fuel →
      extractValue (arena' ++ tail) fuel a = .ok v := by
  cases v with
  | leaf l =>
    intro tail fuel hf
    cases fuel with
    | zero => simp [csize] at hf
    | succ f => exact addValueLeaf_extract arena l arena' a hwf h tail f
  | arr elems =>
    rw [addValue] at h
    cases haE : addElems arena elems [] with
    | error e => rw [haE] at h; exact absurd h (by simp [Bind.bind, Except.bind])
    | ok pr =>
      obtain ⟨arena1, positions⟩ := pr
      rw [haE] at h
      simp only [Bind.bind, Except.bind, writeBytesInto] at h
      obtain ⟨hp, hx⟩ := valueAddrNew_map_ok _ _ _ _ h
      obtain ⟨h1, h2⟩ := Prod.mk.injEq .. ▸ hx
      subst h1; subst h2
      simp only [CValue.Wf] at hwf
      obtain ⟨newPos, hnp, hext⟩ := addElems_extract arena elems [] arena1 positions hwf haE
      rw [List.nil_append] at hnp
      subst hnp
      intro tail fuel hf
      simp only [csize] at hf
      cases fuel with
      | zero => omega
      | succ f =>
        simp only [List.append_assoc]
        rw [extractValue_arr_step]
        rw [hext (vintEncode positions.length ++ (positions ++ tail)) f (by omega)]
        rfl
  | obj entries =>
    rw [addValue] at h
    cases haE : addEntries arena entries [] with
    | error e => rw [haE] at h; exact absurd h (by simp [Bind.bind, Except.bind])
    | ok pr =>
      obtain ⟨arena1, positions⟩ := pr
      rw [haE] at h
      simp only [Bind.bind, Except.bind, writeBytesInto] at h
      obtain ⟨hp, hx⟩ := valueAddrNew_map_ok _ _ _ _ h
      obtain ⟨h1, h2⟩ := Prod.mk.injEq .. ▸ hx
      subst h1; subst h2
      simp only [CValue.Wf] at hwf
      obtain ⟨newPos, hnp, hext⟩ := addEntries_extract arena entries [] arena1 positions hwf haE
      rw [List.nil_append] at hnp
      subst hnp
      intro tail fuel hf
      simp only [csize] at hf
      cases fuel with
      | zero => omega
      | succ f =>
        simp only [List.append_assoc]
        rw [extractValue_obj_step]
        rw [hext (vintEncode positions.length ++ (positions ++ tail)) f (by omega)]
        rfl

/-- The positions recorded by the array-element loop decode back to the
element list, from any extension of the arena the loop produced. -/
theorem addElems_extract (arena : Arena) (es : List CValue) (pos0 : List Nat)
    (arenaF : Arena) (posF : List Nat)
    (hwf : CValue.wfL es = true) (h : addElems arena es pos0 = .ok (arenaF, posF)) :
    ∃ newPos, posF = pos0 ++ newPos ∧
      ∀ (tail : List Nat) (fuel : Nat), csizeL es ≤ fuel →
        extractArr (arenaF ++ tail) fuel newPos = .ok es := by
  cases es with
  | nil =>
    simp only [addElems] at h
    obtain ⟨h1, h2⟩ := Prod.mk.injEq .. ▸ (Except.ok.inj h)
    subst h1; subst h2
    refine ⟨[], by simp, ?_⟩
    intro tail fuel hf
    cases fuel with
    | zero => simp [csizeL] at hf
    | succ f => rfl
  | cons e rest =>
    rw [addElems] at h
    cases haV : addValue arena e with
    | error err => rw [haV] at h; exact absurd h (by simp [Bind.bind, Except.bind])
    | ok pr =>
      obtain ⟨arena1, refE⟩ := pr
      rw [haV] at h
      simp only [Bind.bind, Except.bind, writeInto] at h
      simp only [CValue.wfL, Bool.and_eq_true] at hwf
      obtain ⟨hwfe, hwfr⟩ := hwf
      obtain ⟨np', hnp', hext'⟩ := addElems_extract (arena1 ++ refE.toBytes) rest
        (pos0 ++ vintEncode arena1.length) arenaF posF hwfr h
      refine ⟨vintEncode arena1.length ++ np', by rw [hnp', List.append_assoc], ?_⟩
      intro tail fuel hf
      simp only [csizeL] at hf
      cases fuel with
      | zero => omega
      | succ f =>
        obtain ⟨δ, hδ⟩ := addElems_ok _ _ _ _ _ h
        have hval := addValue_ok arena e arena1 refE haV
        have harr : arenaF ++ tail = arena1 ++ (refE.toBytes ++ (δ ++ tail)) := by
          rw [← hδ]
          simp [List.append_assoc]
        have hvc := addValue_extract arena e arena1 refE hwfe haV
          (refE.toBytes ++ (δ ++ tail)) f (by omega)
        have hec := hext' tail f (by omega)
        rw [harr] at hec
        rw [harr]
        have hlen : arena1.length ≤ (arena1 ++ (refE.toBytes ++ (δ ++ tail))).length := by
          simp
        have hdeser : ValueAddr.deser
            ((arena1 ++ (refE.toBytes ++ (δ ++ tail))).drop arena1.length) = some refE := by
          rw [List.drop_left]
          exact ValueAddr.deser_toBytes refE hval.2 _
        rw [extractArr_step _ f _ np' refE hlen hdeser, hvc, hec]
        rfl

/-- The positions recorded by the object-entry loop decode back to the entry
list, from any extension of the arena the loop produced. -/
theorem addEntries_extract (arena : Arena) (en : List (List Nat × CValue)) (pos0 : List Nat)
    (arenaF : Arena) (posF : List Nat)
    (hwf : CValue.wfE en = true) (h : addEntries arena en pos0 = .ok (arenaF, posF)) :
    ∃ newPos, posF = pos0 ++ newPos ∧
      ∀ (tail : List Nat) (fuel : Nat), csizeE en ≤ fuel →
        extractObj (arenaF ++ tail) fuel newPos = .ok en := by
  cases en with
  | nil =>
    simp only [addEntries] at h
    obtain ⟨h1, h2⟩ := Prod.mk.injEq .. ▸ (Except.ok.inj h)
    subst h1; subst h2
    refine ⟨[], by simp, ?_⟩
    intro tail fuel hf
    cases fuel with
    | zero => simp [csizeE] at hf
    | succ f => rfl
  | cons kv rest =>
    obtain ⟨k, v⟩ := kv
    rw [addEntries] at h
    cases haK : addValueLeaf arena (.str k) with
    | error err => rw [haK] at h; exact absurd h (by simp [Bind.bind, Except.bind])
    | ok prK =>
      obtain ⟨arena1, refKey⟩ := prK
      rw [haK] at h
      simp only [Bind.bind, Except.bind] at h
      cases haV : addValue arena1 v with
      | error err => rw [haV] at h; exact absurd h (by simp [Bind.bind, Except.bind])
      | ok prV =>
        obtain ⟨arena2, refVal⟩ := prV
        rw [haV] at h
        simp only [Bind.bind, Except.bind, writeInto] at h
        simp only [CValue.wfE, Bool.and_eq_true] at hwf
        obtain ⟨⟨hwfk, hwfv⟩, hwfr⟩ := hwf
        obtain ⟨np', hnp', hext'⟩ := addEntries_extract
          (arena2 ++ refKey.toBytes ++ refVal.toBytes) rest
          (pos0 ++ vintEncode arena2.length) arenaF posF hwfr h
        refine ⟨vintEncode arena2.length ++ np', by rw [hnp', List.append_assoc], ?_⟩
        intro tail fuel hf
        simp only [csizeE] at hf
        cases fuel with
        | zero => omega
        | succ f =>
          obtain ⟨δ, hδ⟩ := addEntries_ok _ _ _ _ _ h
          have hvalV := addValue_ok arena1 v arena2 refVal haV
          have harr : arenaF ++ tail =
              arena2 ++ (refKey.toBytes ++ (refVal.toBytes ++ (δ ++ tail))) := by
            rw [← hδ]
            simp [List.append_assoc]
          simp only [addValueLeaf, writeBytesInto] at haK
          obtain ⟨hpK, hxK⟩ := valueAddrNew_map_ok _ _ _ _ haK
          obtain ⟨hK1, hK2⟩ := Prod.mk.injEq .. ▸ hxK
          have hvc := addValue_extract arena1 v arena2 refVal hwfv haV
            (refKey.toBytes ++ (refVal.toBytes ++ (δ ++ tail))) f (by omega)
          have hec := hext' tail f (by omega)
          rw [harr] at hec
          rw [harr]
          have hlen : arena2.length ≤
              (arena2 ++ (refKey.toBytes ++ (refVal.toBytes ++ (δ ++ tail)))).length := by
            simp
          have hdeserK : ValueAddr.deser
              ((arena2 ++ (refKey.toBytes ++ (refVal.toBytes ++ (δ ++ tail)))).drop
                arena2.length) = some refKey := by
            rw [List.drop_left]
            have hkv : refKey.val < 2 ^ 24 := by rw [hK2]; exact hpK
            exact ValueAddr.deser_toBytes refKey hkv _
          have hkey : extractStr (arena2 ++ (refKey.toBytes ++ (refVal.toBytes ++ (δ ++ tail))))
              refKey.val = .ok k := by
            obtain ⟨δ2, hδ2⟩ := hvalV.1
            have hshape : arena2 ++ (refKey.toBytes ++ (refVal.toBytes ++ (δ ++ tail))) =
                arena ++ (vintEncode k.length ++ (k ++
                  (δ2 ++ (refKey.toBytes ++ (refVal.toBytes ++ (δ ++ tail)))))) := by
              rw [← hδ2, hK1]
              simp [List.append_assoc]
            rw [hshape, hK2]
            exact extractStr_written arena k _
          have hdeserV : ValueAddr.deser
              (((arena2 ++ (refKey.toBytes ++ (refVal.toBytes ++ (δ ++ tail)))).drop
                arena2.length).drop 4) = some refVal := by
            rw [List.drop_left, ← ValueAddr.toBytes_length refKey, List.drop_left]
            exact ValueAddr.deser_toBytes refVal hvalV.2 _
          rw [extractObj_step _ f _ np' refKey refVal k hlen hdeserK hkey hdeserV, hvc, hec]
          rfl

end

/-! ## Arena overflow and address positions -/

/-- Bool and null adds always succeed and leave the arena untouched. -/
theorem addValue_inline (arena : Arena) (v : CValue) (hi : v.isInline = true) :
    ∃ a : ValueAddr, addValue arena v = .ok (arena, a) := by
  cases v with
  | leaf l =>
    cases l with
    | null => exact ⟨⟨.null, 0⟩, rfl⟩
    | bool b => cases b <;> exact ⟨_, rfl⟩
    | str bs => simp [CValue.isInline] at hi
    | u64 n => simp [CValue.isInline] at hi
    | i64 n => simp [CValue.isInline] at hi
    | f64 bits => simp [CValue.isInline] at hi
    | date nanos => simp [CValue.isInline] at hi
    | facet bs => simp [CValue.isInline] at hi
    | bytes bs => simp [CValue.isInline] at hi
    | ipAddr n => simp [CValue.isInline] at hi
    | preTokStr bs => simp [CValue.isInline] at hi
  | arr elems => simp [CValue.isInline] at hi
  | obj entries => simp [CValue.isInline] at hi

theorem valueAddrNew_map_overflow {α : Type} (f : ValueAddr → α) (t : ValueType) (p : Nat)
    (hbig : 2 ^ 24 ≤ p) : (ValueAddr.new t p).map f = .error .arenaOverflow := by
  unfold ValueAddr.new
  rw [if_neg (by omega)]
  rfl

mutual

/-- When the arena has already reached the 16 MiB offset cap, adding any
value that is not inlined (anything but bool and null) fails with
`arenaOverflow`: the payload's offset no longer fits in the 3-byte address. -/
theorem addValue_overflow (arena : Arena) (v : CValue)
    (hbig : 2 ^ 24 ≤ arena.length) (hni : v.isInline = false) :
    addValue arena v = .error .arenaOverflow := by
  cases v with
  | leaf l =>
    cases l with
    | null => simp [CValue.isInline] at hni
    | bool b => simp [CValue.isInline] at hni
    | str bs =>
      simp only [addValue, addValueLeaf, writeBytesInto]
      exact valueAddrNew_map_overflow _ _ _ hbig
    | u64 n =>
      simp only [addValue, addValueLeaf, writeInto]
      exact valueAddrNew_map_overflow _ _ _ hbig
    | i64 n =>
      simp only [addValue, addValueLeaf, writeInto]
      exact valueAddrNew_map_overflow _ _ _ hbig
    | f64 bits =>
      simp only [addValue, addValueLeaf, writeInto]
      exact valueAddrNew_map_overflow _ _ _ hbig
    | date nanos =>
      simp only [addValue, addValueLeaf, writeInto]
      exact valueAddrNew_map_overflow _ _ _ hbig
    | facet bs =>
      simp only [addValue, addValueLeaf, writeBytesInto]
      exact valueAddrNew_map_overflow _ _ _ hbig
    | bytes bs =>
      simp only [addValue, addValueLeaf, writeBytesInto]
      exact valueAddrNew_map_overflow _ _ _ hbig
    | ipAddr n =>
      simp only [addValue, addValueLeaf, writeInto]
      exact valueAddrNew_map_overflow _ _ _ hbig
    | preTokStr bs =>
      simp only [addValue, addValueLeaf, writeInto]
      exact valueAddrNew_map_overflow _ _ _ hbig
  | arr elems =>
    rw [addValue]
    rcases addElems_overflow arena elems [] hbig with herr | ⟨aF, pF, hok, hlen⟩
    · rw [herr]; rfl
    · rw [hok]
      simp only [Bind.bind, Except.bind, writeBytesInto]
      exact valueAddrNew_map_overflow _ _ _ hlen
  | obj entries =>
    rw [addValue]
    rcases addEntries_overflow arena entries [] hbig with herr | ⟨aF, pF, hok, hlen⟩
    · rw [herr]; rfl
    · rw [hok]
      simp only [Bind.bind, Except.bind, writeBytesInto]
      exact valueAddrNew_map_overflow _ _ _ hlen

/-- Element loop under an overflowing arena: either it fails with
`arenaOverflow` (some element carries a payload) or every element was
inlined and the arena is still past the cap. -/
theorem addElems_overflow (arena : Arena) (es : List CValue) (pos : List Nat)
    (hbig : 2 ^ 24 ≤ arena.length) :
    addElems arena es pos = .error .arenaOverflow ∨
      ∃ aF pF, addElems arena es pos = .ok (aF, pF) ∧ 2 ^ 24 ≤ aF.length := by
  cases es with
  | nil => exact Or.inr ⟨arena, pos, rfl, hbig⟩
  | cons e rest =>
    rw [addElems]
    cases hi : e.isInline with
    | false =>
      rw [addValue_overflow arena e hbig hi]
      exact Or.inl rfl
    | true =>
      obtain ⟨a, ha⟩ := addValue_inline arena e hi
      rw [ha]
      simp only [Bind.bind, Except.bind, writeInto]
      have hbig2 : 2 ^ 24 ≤ (arena ++ a.toBytes).length := by
        simp only [List.length_append]
        omega
      exact addElems_overflow (arena ++ a.toBytes) rest (pos ++ vintEncode arena.length) hbig2

/-- Entry loop under an overflowing arena: the first entry's key is a string
leaf, whose payload write always overflows; an empty entry list succeeds
with the arena unchanged. -/
theorem addEntries_overflow (arena : Arena) (en : List (List Nat × CValue)) (pos : List Nat)
    (hbig : 2 ^ 24 ≤ arena.length) :
    addEntries arena en pos = .error .arenaOverflow ∨
      ∃ aF pF, addEntries arena en pos = .ok (aF, pF) ∧ 2 ^ 24 ≤ aF.length := by
  cases en with
  | nil => exact Or.inr ⟨arena, pos, rfl, hbig⟩
  | cons kv rest =>
    obtain ⟨k, v⟩ := kv
    rw [addEntries]
    have hk : addValueLeaf arena (.str k) = .error .arenaOverflow := by
      simp only [addValueLeaf, writeBytesInto]
      exact valueAddrNew_map_overflow _ _ _ hbig
    rw [hk]
    exact Or.inl rfl

end

/-- A non-inlined value's returned offset points into the bytes the call
itself appended: at or past the old arena end, strictly before the new end. -/
theorem addValue_pos (arena : Arena) (v : CValue) (arena' : Arena) (a : ValueAddr)
    (h : addValue arena v = .ok (arena', a)) (hni : v.isInline = false) :
    arena.length ≤ a.val ∧ a.val < arena'.length := by
  cases v with
  | leaf l =>
    cases l
    case null => simp [CValue.isInline] at hni
    case bool b => simp [CValue.isInline] at hni
    case str bs =>
      simp only [addValue, addValueLeaf, writeBytesInto] at h
      obtain ⟨hp, hx⟩ := valueAddrNew_map_ok _ _ _ _ h
      obtain ⟨h1, h2⟩ := Prod.mk.injEq .. ▸ hx
      subst h1; subst h2
      refine ⟨le_refl _, ?_⟩
      simp only [List.length_append]
      have := vintEncode_length_pos bs.length
      omega
    case facet bs =>
      simp only [addValue, addValueLeaf, writeBytesInto] at h
      obtain ⟨hp, hx⟩ := valueAddrNew_map_ok _ _ _ _ h
      obtain ⟨h1, h2⟩ := Prod.mk.injEq .. ▸ hx
      subst h1; subst h2
      refine ⟨le_refl _, ?_⟩
      simp only [List.length_append]
      have := vintEncode_length_pos bs.length
      omega
    case bytes bs =>
      simp only [addValue, addValueLeaf, writeBytesInto] at h
      obtain ⟨hp, hx⟩ := valueAddrNew_map_ok _ _ _ _ h
      obtain ⟨h1, h2⟩ := Prod.mk.injEq .. ▸ hx
      subst h1; subst h2
      refine ⟨le_refl _, ?_⟩
      simp only [List.length_append]
      have := vintEncode_length_pos bs.length
      omega
    case preTokStr bs =>
      simp only [addValue, addValueLeaf, writeInto] at h
      obtain ⟨hp, hx⟩ := valueAddrNew_map_ok _ _ _ _ h
      obtain ⟨h1, h2⟩ := Prod.mk.injEq .. ▸ hx
      subst h1; subst h2
      refine ⟨le_refl _, ?_⟩
      simp only [List.length_append]
      have := vintEncode_length_pos bs.length
      omega
    case u64 n =>
      simp only [addValue, addValueLeaf, writeInto] at h
      obtain ⟨hp, hx⟩ := valueAddrNew_map_ok _ _ _ _ h
      obtain ⟨h1, h2⟩ := Prod.mk.injEq .. ▸ hx
      subst h1; subst h2
      exact ⟨le_refl _, by simp [leBytes_length]⟩
    case i64 n =>
      simp only [addValue, addValueLeaf, writeInto] at h
      obtain ⟨hp, hx⟩ := valueAddrNew_map_ok _ _ _ _ h
      obtain ⟨h1, h2⟩ := Prod.mk.injEq .. ▸ hx
      subst h1; subst h2
      exact ⟨le_refl _, by simp [leBytes_length]⟩
    case f64 bits =>
      simp only [addValue, addValueLeaf, writeInto] at h
      obtain ⟨hp, hx⟩ := valueAddrNew_map_ok _ _ _ _ h
      obtain ⟨h1, h2⟩ := Prod.mk.injEq .. ▸ hx
      subst h1; subst h2
      exact ⟨le_refl _, by simp [leBytes_length]⟩
    case date nanos =>
      simp only [addValue, addValueLeaf, writeInto] at h
      obtain ⟨hp, hx⟩ := valueAddrNew_map_ok _ _ _ _ h
      obtain ⟨h1, h2⟩ := Prod.mk.injEq .. ▸ hx
      subst h1; subst h2
      exact ⟨le_refl _, by simp [leBytes_length]⟩
    case ipAddr n =>
      simp only [addValue, addValueLeaf, writeInto] at h
      obtain ⟨hp, hx⟩ := valueAddrNew_map_ok _ _ _ _ h
      obtain ⟨h1, h2⟩ := Prod.mk.injEq .. ▸ hx
      subst h1; subst h2
      exact ⟨le_refl _, by simp [leBytes_length]⟩
  | arr elems =>
    rw [addValue] at h
    cases haE : addElems arena elems [] with
    | error e => rw [haE] at h; exact absurd h (by simp [Bind.bind, Except.bind])
    | ok pr =>
      obtain ⟨arena1, positions⟩ := pr
      rw [haE] at h
      simp only [Bind.bind, Except.bind, writeBytesInto] at h
      obtain ⟨hp, hx⟩ := valueAddrNew_map_ok _ _ _ _ h
      obtain ⟨h1, h2⟩ := Prod.mk.injEq .. ▸ hx
      subst h1; subst h2
      have hg := (addElems_ok arena elems [] arena1 positions haE).length_le
      refine ⟨hg, ?_⟩
      simp only [List.length_append]
      have := vintEncode_length_pos positions.length
      omega
  | obj entries =>
    rw [addValue] at h
    cases haE : addEntries arena entries [] with
    | error e => rw [haE] at h; exact absurd h (by simp [Bind.bind, Except.bind])
    | ok pr =>
      obtain ⟨arena1, positions⟩ := pr
      rw [haE] at h
      simp only [Bind.bind, Except.bind, writeBytesInto] at h
      obtain ⟨hp, hx⟩ := valueAddrNew_map_ok _ _ _ _ h
      obtain ⟨h1, h2⟩ := Prod.mk.injEq .. ▸ hx
      subst h1; subst h2
      have hg := (addEntries_ok arena entries [] arena1 positions haE).length_le
      refine ⟨hg, ?_⟩
      simp only [List.length_append]
      have := vintEncode_length_pos positions.length
      omega

/-- Per-entry facts of an add trace: payload-bearing addresses point at or
past the arena end the sequence started from and strictly before the arena
end right after their own call, which never exceeds the final end. -/
theorem addValuesTrace_spec (vs : List CValue) :
    ∀ (arena arenaF : Arena) (tr : List (CValue × ValueAddr × Nat)),
      addValuesTrace arena vs = .ok (arenaF, tr) →
      arena <+: arenaF ∧
        ∀ p ∈ tr, (p.1.isInline = false →
          arena.length ≤ p.2.1.val ∧ p.2.1.val < p.2.2) ∧ p.2.2 ≤ arenaF.length := by
  induction vs with
  | nil =>
    intro arena arenaF tr h
    simp only [addValuesTrace] at h
    obtain ⟨h1, h2⟩ := Prod.mk.injEq .. ▸ (Except.ok.inj h)
    subst h1; subst h2
    exact ⟨List.prefix_rfl, by simp⟩
  | cons v vs ih =>
    intro arena arenaF tr h
    rw [addValuesTrace] at h
    cases haV : addValue arena v with
    | error err => rw [haV] at h; exact absurd h (by simp [Bind.bind, Except.bind])
    | ok pr =>
      obtain ⟨arena1, a⟩ := pr
      rw [haV] at h
      simp only [Bind.bind, Except.bind] at h
      cases haT : addValuesTrace arena1 vs with
      | error err => rw [haT] at h; exact absurd h (by simp [Bind.bind, Except.bind])
      | ok prT =>
        obtain ⟨arenaF', rest⟩ := prT
        rw [haT] at h
        simp only at h
        obtain ⟨h1, h2⟩ := Prod.mk.injEq .. ▸ (Except.ok.inj h)
        subst h1; subst h2
        obtain ⟨hpre1, _⟩ := addValue_ok arena v arena1 a haV
        obtain ⟨hpre2, hrest⟩ := ih arena1 arenaF' rest haT
        refine ⟨hpre1.trans hpre2, ?_⟩
        intro p hp
        rw [List.mem_cons] at hp
        rcases hp with rfl | hp
        · refine ⟨?_, hpre2.length_le⟩
          intro hni
          exact addValue_pos arena v arena1 a haV hni
        · obtain ⟨hq1, hq2⟩ := hrest p hp
          refine ⟨?_, hq2⟩
          intro hni
          obtain ⟨ha1, ha2⟩ := hq1 hni
          exact ⟨le_trans hpre1.length_le ha1, ha2⟩

/-! ## Fast-field lemmas (positions_to_docids) -/

/-- The offset column is non-decreasing on the first `n` steps. -/
def MonoUpTo (off : Nat → Nat) (n : Nat) : Prop :=
  ∀ i, i < n → off i ≤ off (i + 1)

theorem monoUpTo_le (off : Nat → Nat) (n : Nat) (h : MonoUpTo off n) :
    ∀ i j, i ≤ j → j ≤ n → off i ≤ off j := by
  intro i j
  induction j with
  | zero =>
    intro hij _
    have : i = 0 := by omega
    subst this
    exact le_refl _
  | succ jj ihj =>
    intro hij hjn
    by_cases hi : i = jj + 1
    · subst hi; exact le_refl _
    · exact le_trans (ihj (by omega) (by omega)) (h jj (by omega))

/-- A position lies in the range of at most one document. -/
theorem containsUnique (off : Nat → Nat) (n : Nat) (hm : MonoUpTo off n)
    (d d' p : Nat) (hd : d < n) (hd' : d' < n)
    (h1 : off d ≤ p ∧ p < off (d + 1)) (h2 : off d' ≤ p ∧ p < off (d' + 1)) : d = d' := by
  rcases lt_trichotomy d d' with hlt | heq | hgt
  · have := monoUpTo_le off n hm (d + 1) d' (by omega) (by omega)
    omega
  · exact heq
  · have := monoUpTo_le off n hm (d' + 1) d (by omega) (by omega)
    omega

theorem findDoc_some (off : Nat → Nat) (n : Nat) (hm : MonoUpTo off n)
    (d pos : Nat) (hd : d < n) (hc1 : off d ≤ pos) (hc2 : pos < off (d + 1)) :
    ∀ (fuel cur : Nat), cur ≤ d → d < cur + fuel →
      findDoc off fuel cur pos = some d := by
  intro fuel
  induction fuel with
  | zero => intro cur _ _; omega
  | succ f ih =>
    intro cur hcd hlt
    rw [findDoc]
    by_cases hc : cur = d
    · subst hc
      rw [if_pos ⟨hc1, hc2⟩]
    · have hno : ¬(off cur ≤ pos ∧ pos < off (cur + 1)) := by
        intro hcc
        exact hc (containsUnique off n hm cur d pos (by omega) hd hcc ⟨hc1, hc2⟩)
      rw [if_neg hno]
      exact ih (cur + 1) (by omega) (by omega)

/-- Full correctness of the cursor scan `p2dGo`: on sorted in-range input the
output is strictly ascending and contains exactly the documents whose range
holds one of the remaining positions and that are not suppressed by the
last emission. -/
theorem p2dGo_spec (off : Nat → Nat) (n : Nat) (hm : MonoUpTo off n) :
    ∀ (ps : List Nat) (cur : Nat) (last : Option Nat),
      List.Pairwise (· ≤ ·) ps →
      (∀ p ∈ ps, ∃ d, d < n ∧ off d ≤ p ∧ p < off (d + 1)) →
      (∀ p ∈ ps, off cur ≤ p) →
      (last = none ∨ last = some cur) →
      cur ≤ n →
      List.Pairwise (· < ·) (p2dGo off n ps cur last) ∧
        ∀ d, d ∈ p2dGo off n ps cur last ↔
          (d < n ∧ (∃ p ∈ ps, off d ≤ p ∧ p < off (d + 1)) ∧ last ≠ some d) := by
  intro ps
  induction ps with
  | nil =>
    intro cur last _ _ _ _ _
    simp [p2dGo]
  | cons p ps ih =>
    intro cur last hsort hin hcur hlast hcn
    obtain ⟨d0, hd0n, hc1, hc2⟩ := hin p (by simp)
    have hcd0 : cur ≤ d0 := by
      by_contra hlt
      push_neg at hlt
      have h1 := monoUpTo_le off n hm (d0 + 1) cur (by omega) hcn
      have h2 := hcur p (by simp)
      omega
    have hfind : findDoc off (n - cur) cur p = some d0 :=
      findDoc_some off n hm d0 p hd0n hc1 hc2 (n - cur) cur hcd0 (by omega)
    obtain ⟨hhead, htail⟩ := List.pairwise_cons.mp hsort
    have hcur' : ∀ q ∈ ps, off d0 ≤ q := fun q hq => le_trans hc1 (hhead q hq)
    have hintail : ∀ q ∈ ps, ∃ d, d < n ∧ off d ≤ q ∧ q < off (d + 1) :=
      fun q hq => hin q (by simp [hq])
    have hge : ∀ x, x < n → (∃ q ∈ ps, off x ≤ q ∧ q < off (x + 1)) → d0 ≤ x := by
      intro x hxn ⟨q, hq, hq1, hq2⟩
      by_contra hlt
      push_neg at hlt
      have h1 := monoUpTo_le off n hm (x + 1) d0 (by omega) (by omega)
      have h2 := hcur' q hq
      omega
    by_cases hld : last = some d0
    · simp only [p2dGo, hfind, if_pos hld]
      obtain ⟨hp1, hp2⟩ := ih d0 last htail hintail hcur' (Or.inr hld) (by omega)
      refine ⟨hp1, ?_⟩
      intro d
      rw [hp2 d]
      subst hld
      constructor
      · rintro ⟨hdn, ⟨q, hq, hqc⟩, hne⟩
        exact ⟨hdn, ⟨q, by simp [hq], hqc⟩, hne⟩
      · rintro ⟨hdn, ⟨q, hq, hqc⟩, hne⟩
        rw [List.mem_cons] at hq
        rcases hq with rfl | hq
        · have : d = d0 := containsUnique off n hm d d0 q hdn hd0n hqc ⟨hc1, hc2⟩
          subst this
          exact absurd rfl hne
        · exact ⟨hdn, ⟨q, hq, hqc⟩, hne⟩
    · simp only [p2dGo, hfind, if_neg hld]
      obtain ⟨hp1, hp2⟩ := ih d0 (some d0) htail hintail hcur' (Or.inr rfl) (by omega)
      constructor
      · rw [List.pairwise_cons]
        refine ⟨?_, hp1⟩
        intro x hx
        rw [hp2 x] at hx
        obtain ⟨hxn, hex, hne⟩ := hx
        have h1 := hge x hxn hex
        have h2 : x ≠ d0 := fun hc => hne (by rw [hc])
        omega
      · intro d
        rw [List.mem_cons, hp2 d]
        constructor
        · rintro (rfl | ⟨hdn, ⟨q, hq, hqc⟩, hne⟩)
          · exact ⟨hd0n, ⟨p, by simp, hc1, hc2⟩, hld⟩
          · have hgt : d0 < d := by
              have h1 := hge d hdn ⟨q, hq, hqc⟩
              have h2 : d ≠ d0 := fun hc => hne (by rw [hc])
              omega
            refine ⟨hdn, ⟨q, by simp [hq], hqc⟩, ?_⟩
            rcases hlast with rfl | rfl
            · simp
            · intro hc
              have : d = cur := by
                injection hc with hc'
                omega
              omega
        · rintro ⟨hdn, ⟨q, hq, hqc⟩, hne⟩
          rw [List.mem_cons] at hq
          rcases hq with rfl | hq
          · left
            exact (containsUnique off n hm d0 d q hd0n hdn ⟨hc1, hc2⟩ hqc).symm
          · by_cases hdd : d = d0
            · left; exact hdd
            · right
              exact ⟨hdn, ⟨q, hq, hqc⟩, fun hc => hdd (Option.some.inj hc).symm⟩

/-! ## Offset-column aggregate lemmas -/

theorem chainLe_le_getLastD (rest : List Nat) :
    ∀ b, List.Chain' (· ≤ ·) (b :: rest) → b ≤ rest.getLastD b := by
  induction rest with
  | nil => intro b _; simp [List.getLastD]
  | cons c rest ih =>
    intro b h
    rw [List.chain'_cons] at h
    rw [List.getLastD_cons]
    exact le_trans h.1 (ih c h.2)

theorem ffMax_chain (rest : List Nat) :
    ∀ a, List.Chain' (· ≤ ·) (a :: rest) → ffMax (a :: rest) = rest.getLastD a := by
  induction rest with
  | nil => intro a _; simp [ffMax]
  | cons c rest ih =>
    intro a h
    rw [List.chain'_cons] at h
    have h2 := ih c h.2
    simp only [ffMax, List.foldr_cons] at h2 ⊢
    rw [h2, List.getLastD_cons]
    have h3 := chainLe_le_getLastD rest c h.2
    omega

theorem offsets_telescope (offs : List Nat) :
    ∀ a, List.Chain' (· ≤ ·) (a :: offs) →
      (∑ d ∈ Finset.range offs.length,
        ((a :: offs).getD (d + 1) 0 - (a :: offs).getD d 0)) = offs.getLastD a - a := by
  induction offs with
  | nil => intro a _; simp [List.getLastD]
  | cons b rest ih =>
    intro a h
    rw [List.chain'_cons] at h
    simp only [List.length_cons]
    rw [Finset.sum_range_succ']
    have hcongr : ∀ i ∈ Finset.range rest.length,
        (a :: b :: rest).getD (i + 1 + 1) 0 - (a :: b :: rest).getD (i + 1) 0 =
        (b :: rest).getD (i + 1) 0 - (b :: rest).getD i 0 := by
      intro i _
      simp [List.getD_cons_succ]
    rw [Finset.sum_congr rfl hcongr, ih b h.2]
    simp only [List.getD_cons_succ, List.getD_cons_zero, List.getLastD_cons]
    have h3 := chainLe_le_getLastD rest b h.2
    omega

/-! ## Typed-fault behavior of fixed-width extraction -/

/-- The leaf kinds whose payload is read through the fixed-width cursor path
(`read_from`), whose failures are typed errors. -/
def isFixedLeafType : ValueType → Bool
  | .u64 => true
  | .i64 => true
  | .f64 => true
  | .date => true
  | .ipAddr => true
  | _ => false

theorem readFixed_cases (arena : Arena) (pos w : Nat) (hin : pos ≤ arena.length) :
    readFixed arena pos w = .ok ((arena.drop pos).take w) ∨
      readFixed arena pos w = .error .truncated := by
  unfold readFixed
  rw [if_pos hin]
  by_cases hw : w ≤ arena.length - pos
  · rw [if_pos hw]; exact Or.inl rfl
  · rw [if_neg hw]; exact Or.inr rfl

theorem extract_fixed_leaf_typed (arena : Arena) (va : ValueAddr) (fuel : Nat)
    (hin : va.val ≤ arena.length) (hfix : isFixedLeafType va.type_id = true) :
    (∃ v, extractValue arena (fuel + 1) va = .ok v) ∨
      extractValue arena (fuel + 1) va = .error .truncated := by
  obtain ⟨t, pos⟩ := va
  cases t
  case null => simp [isFixedLeafType] at hfix
  case str => simp [isFixedLeafType] at hfix
  case facet => simp [isFixedLeafType] at hfix
  case bytes => simp [isFixedLeafType] at hfix
  case bool => simp [isFixedLeafType] at hfix
  case preTokStr => simp [isFixedLeafType] at hfix
  case obj => simp [isFixedLeafType] at hfix
  case arr => simp [isFixedLeafType] at hfix
  case u64 =>
    rcases readFixed_cases arena pos 8 hin with hc | hc
    · exact Or.inl ⟨_, by simp only [extractValue, hc]; rfl⟩
    · exact Or.inr (by simp only [extractValue, hc]; rfl)
  case i64 =>
    rcases readFixed_cases arena pos 8 hin with hc | hc
    · exact Or.inl ⟨_, by simp only [extractValue, hc]; rfl⟩
    · exact Or.inr (by simp only [extractValue, hc]; rfl)
  case f64 =>
    rcases readFixed_cases arena pos 8 hin with hc | hc
    · exact Or.inl ⟨_, by simp only [extractValue, hc]; rfl⟩
    · exact Or.inr (by simp only [extractValue, hc]; rfl)
  case date =>
    rcases readFixed_cases arena pos 8 hin with hc | hc
    · exact Or.inl ⟨_, by simp only [extractValue, hc]; rfl⟩
    · exact Or.inr (by simp only [extractValue, hc]; rfl)
  case ipAddr =>
    rcases readFixed_cases arena pos 16 hin with hc | hc
    · exact Or.inl ⟨_, by simp only [extractValue, hc]; rfl⟩
    · exact Or.inr (by simp only [extractValue, hc]; rfl)

/-! ## Claim theorems -/

/-- Offset column [0,2,3,4] of the spec's Position-to-DocId scenario,
extended constantly past its end. -/
def exOffsets : Nat → Nat := fun i =>
  if i = 0 then 0 else if i = 1 then 2 else if i = 2 then 3 else 4

/-- C1: for every offset column that is non-decreasing with first entry 0 and
every ascending-sorted list of value-column positions each contained in some
document's range, `positions_to_docids` returns the document ids in strictly
ascending order with no duplicates, containing exactly those documents whose
range contains at least one given position; in particular, for offset column
[0,2,3,4] and positions [0,1,3] it returns [0,2]. -/
theorem claim_C1 :
    (∀ (off : Nat → Nat) (numDocs : Nat) (ps : List Nat),
      MonoUpTo off numDocs → off 0 = 0 →
      List.Pairwise (· ≤ ·) ps →
      (∀ p ∈ ps, ∃ d, d < numDocs ∧ off d ≤ p ∧ p < off (d + 1)) →
      List.Pairwise (· < ·) (positions_to_docids off numDocs ps) ∧
        ∀ d, d ∈ positions_to_docids off numDocs ps ↔
          d < numDocs ∧ ∃ p ∈ ps, off d ≤ p ∧ p < off (d + 1)) ∧
    positions_to_docids exOffsets 3 [0, 1, 3] = [0, 2] := by
  constructor
  · intro off numDocs ps hm h0 hsort hin
    have hcur : ∀ p ∈ ps, off 0 ≤ p := by
      intro p _
      rw [h0]
      exact Nat.zero_le p
    obtain ⟨hp1, hp2⟩ := p2dGo_spec off numDocs hm ps 0 none hsort hin hcur
      (Or.inl rfl) (Nat.zero_le _)
    refine ⟨hp1, ?_⟩
    intro d
    rw [positions_to_docids, hp2 d]
    simp
  · rfl

/-- C1 witness: the hypotheses are satisfiable at the spec's concrete
scenario, and the theorem applies there. -/
theorem claim_C1_witness :
    MonoUpTo exOffsets 3 ∧ exOffsets 0 = 0 ∧ List.Pairwise (· ≤ ·) [0, 1, 3] ∧
      (∀ p ∈ [0, 1, 3], ∃ d, d < 3 ∧ exOffsets d ≤ p ∧ p < exOffsets (d + 1)) ∧
      List.Pairwise (· < ·) (positions_to_docids exOffsets 3 [0, 1, 3]) := by
  have hm : MonoUpTo exOffsets 3 := by
    intro i hi
    interval_cases i <;> simp [exOffsets]
  have hin : ∀ p ∈ [0, 1, 3], ∃ d, d < 3 ∧ exOffsets d ≤ p ∧ p < exOffsets (d + 1) := by
    intro p hp
    fin_cases hp
    · exact ⟨0, by decide⟩
    · exact ⟨0, by decide⟩
    · exact ⟨2, by decide⟩
  exact ⟨hm, rfl, by decide, hin,
    ((claim_C1.1) exOffsets 3 [0, 1, 3] hm rfl (by decide) hin).1⟩

/-- Concrete nested-object value used by round-trip witnesses. -/
def vEx : CValue :=
  .obj [([97], .leaf (.u64 1)), ([98], .obj [([99], .leaf (.u64 2))])]

/-- C2: for every bounded (representable) value tree over all thirteen kinds,
`add_value` on any existing arena followed by `extract_ref_value` at the
returned address reproduces a structurally equal tree, with array element
order and object entry order preserved (tree equality is structural). -/
theorem claim_C2 (arena : Arena) (v : CValue) (arena' : Arena) (a : ValueAddr)
    (hwf : CValue.Wf v = true) (h : addValue arena v = .ok (arena', a))
    (fuel : Nat) (hfuel : csize v ≤ fuel) :
    extractValue arena' fuel a = .ok v := by
  have := addValue_extract arena v arena' a hwf h [] fuel hfuel
  rwa [List.append_nil] at this

/-- C2 witness: the round trip at a concrete nested object on a fresh
document. -/
theorem claim_C2_witness :
    CValue.Wf vEx = true ∧
      (∃ pr, addValue [] vEx = .ok pr ∧
        extractValue pr.1 (csize vEx) pr.2 = .ok vEx) := by
  refine ⟨by decide, ?_⟩
  cases hadd : addValue [] vEx with
  | error e =>
    have hok : (addValue [] vEx).toOption.isSome = true := by decide
    rw [hadd] at hok
    simp [Except.toOption] at hok
  | ok pr =>
    exact ⟨pr, rfl, claim_C2 [] vEx pr.1 pr.2 (by decide)
      (by rw [hadd]) (csize vEx) (le_refl _)⟩

/-- C3: once the arena has reached the 2^24-byte offset cap, adding any value
whose payload needs an arena offset (anything but bool/null) fails with the
ArenaOverflow error (the source builds this `io::Error` in `Addr::from_u32`
and `ValueAddr::new` unwraps it, aborting the add); and every address
returned by an earlier successful add still decodes to the same value from
any later extension of the arena, including bytes dead-written by a failing
add. -/
theorem claim_C3 :
    (∀ (arena : Arena) (v : CValue), 2 ^ 24 ≤ arena.length → v.isInline = false →
      addValue arena v = .error .arenaOverflow) ∧
    (∀ (arena : Arena) (v : CValue) (arena' : Arena) (a : ValueAddr)
      (extra : List Nat) (fuel : Nat),
      CValue.Wf v = true → addValue arena v = .ok (arena', a) → csize v ≤ fuel →
      extractValue (arena' ++ extra) fuel a = .ok v) :=
  ⟨fun arena v hbig hni => addValue_overflow arena v hbig hni,
   fun arena v arena' a extra fuel hwf h hfuel =>
     addValue_extract arena v arena' a hwf h extra fuel hfuel⟩

/-- C3 witness: a 16 MiB arena rejects a u64 leaf with ArenaOverflow, and a
previously written u64 leaf still decodes after more bytes are appended. -/
theorem claim_C3_witness :
    (2 ^ 24 ≤ (List.replicate (2 ^ 24) 0 : Arena).length ∧
      (CValue.leaf (RefLeaf.u64 7)).isInline = false ∧
      addValue (List.replicate (2 ^ 24) 0) (.leaf (.u64 7)) = .error .arenaOverflow) ∧
    (CValue.Wf (.leaf (.u64 7)) = true ∧
      addValue [] (.leaf (.u64 7)) = .ok (leBytes 8 7, ⟨.u64, 0⟩) ∧
      extractValue (leBytes 8 7 ++ [5]) 1 ⟨.u64, 0⟩ = .ok (.leaf (.u64 7))) := by
  have hlen : 2 ^ 24 ≤ (List.replicate (2 ^ 24) 0 : Arena).length := by
    rw [List.length_replicate]
  refine ⟨⟨hlen, by decide, claim_C3.1 _ _ hlen (by decide)⟩,
    ⟨by decide, rfl, claim_C3.2 [] _ _ _ [5] 1 (by decide) rfl (by decide)⟩⟩

/-- C4 counterexample: decoding is not always a typed fault on
malformed-but-bounded buffers. A `Str` value whose length prefix promises 2
payload bytes in a 2-byte arena hits the slice indexing
`data[bytes_read..bytes_read+len]` of `binary_deserialize_bytes` and aborts
(panic), and a fixed leaf whose address lies beyond the arena hits the
slice indexing `&node_data[start..]` of `read_from` and aborts; neither is
a typed fault. -/
theorem claim_C4_counterexample :
    extractValue [2, 65] 1 ⟨.str, 0⟩ = .error .panic ∧
      extractValue [1, 2, 3] 1 ⟨.u64, 9⟩ = .error .panic ∧
      DecErr.isTypedFault .panic = false :=
  ⟨rfl, rfl, rfl⟩

/-- C4 as amended: only the fixed-width-leaf cursor path is guaranteed a
typed decode fault: extracting a fixed-width leaf whose address is within
bounds either succeeds or fails with the typed unexpected-EOF error, never
a panic; variable-width (Str/Facet/Bytes) payload decoding panics on
truncated data or out-of-range addresses, per the counterexample. -/
theorem claim_C4_amended (arena : Arena) (va : ValueAddr) (fuel : Nat)
    (hin : va.val ≤ arena.length) (hfix : isFixedLeafType va.type_id = true) :
    (∃ v, extractValue arena (fuel + 1) va = .ok v) ∨
      (extractValue arena (fuel + 1) va = .error .truncated ∧
        DecErr.isTypedFault .truncated = true) := by
  rcases extract_fixed_leaf_typed arena va fuel hin hfix with h | h
  · exact Or.inl h
  · exact Or.inr ⟨h, rfl⟩

/-- C4 witness: the amended theorem applies to a concrete truncated u64. -/
theorem claim_C4_witness :
    (0 : Nat) ≤ ([1, 2, 3] : Arena).length ∧
      isFixedLeafType (ValueType.u64) = true ∧
      ((∃ v, extractValue [1, 2, 3] 1 ⟨.u64, 0⟩ = .ok v) ∨
        (extractValue [1, 2, 3] 1 ⟨.u64, 0⟩ = .error .truncated ∧
          DecErr.isTypedFault .truncated = true)) :=
  ⟨by decide, rfl, claim_C4_amended [1, 2, 3] ⟨.u64, 0⟩ 0 (by decide) rfl⟩

/-- C5: `num_vals(doc)` is the width of `range(doc)` for every document, and
for a non-decreasing offset column with first entry 0 the per-document
counts sum to `total_num_vals()` (the column maximum, i.e. its last
entry). -/
theorem claim_C5 (offs : List Nat) (doc : Nat) :
    (mvNumValsL offs doc = (mvRangeL offs doc).2 - (mvRangeL offs doc).1) ∧
    (List.Chain' (· ≤ ·) offs → ffGet offs 0 = 0 →
      (∑ d ∈ Finset.range (offs.length - 1), mvNumValsL offs d) = mvTotalNumVals offs) := by
  refine ⟨rfl, ?_⟩
  intro hchain h0
  cases offs with
  | nil => simp [mvTotalNumVals, ffMax]
  | cons a rest =>
    have ha : a = 0 := by simpa [ffGet] using h0
    subst ha
    have htel := offsets_telescope rest 0 hchain
    have hmax := ffMax_chain rest 0 hchain
    simp only [List.length_cons, Nat.add_sub_cancel]
    have hsum : (∑ d ∈ Finset.range rest.length, mvNumValsL (0 :: rest) d) =
        ∑ d ∈ Finset.range rest.length,
          ((0 :: rest).getD (d + 1) 0 - (0 :: rest).getD d 0) := rfl
    rw [hsum, htel]
    unfold mvTotalNumVals
    rw [hmax]
    omega

/-- C5 witness: the spec's concrete column [0,2,3,4]. -/
theorem claim_C5_witness :
    List.Chain' (· ≤ ·) ([0, 2, 3, 4] : List Nat) ∧ ffGet [0, 2, 3, 4] 0 = 0 ∧
      (∑ d ∈ Finset.range 3, mvNumValsL [0, 2, 3, 4] d) = mvTotalNumVals [0, 2, 3, 4] :=
  ⟨by simp [List.chain'_cons], rfl,
    (claim_C5 [0, 2, 3, 4] 1).2 (by simp [List.chain'_cons]) rfl⟩

set_option maxRecDepth 8192 in
/-- C6: `ValueType::deserialize` maps every byte 0-12 to the variant with
that discriminant (per the documented table) and rejects every byte 13-255
with the typed unknown-tag error; no out-of-range byte yields a
`ValueType`. -/
theorem claim_C6 :
    (∀ b : Fin 256, (ValueType.deserializeByte b.val).toOption.map ValueType.toNat =
      if b.val ≤ 12 then some b.val else none) ∧
    (∀ b : Fin 256, b.val ≤ 12 ∨ ValueType.deserializeByte b.val = .error .unknownTag) ∧
    ValueType.toNat .null = 0 ∧ ValueType.toNat .str = 1 ∧ ValueType.toNat .u64 = 2 ∧
    ValueType.toNat .i64 = 3 ∧ ValueType.toNat .f64 = 4 ∧ ValueType.toNat .date = 5 ∧
    ValueType.toNat .facet = 6 ∧ ValueType.toNat .bytes = 7 ∧ ValueType.toNat .ipAddr = 8 ∧
    ValueType.toNat .bool = 9 ∧ ValueType.toNat .preTokStr = 10 ∧
    ValueType.toNat .obj = 11 ∧ ValueType.toNat .arr = 12 :=
  ⟨by decide, by decide, rfl, rfl, rfl, rfl, rfl, rfl, rfl, rfl, rfl, rfl, rfl, rfl, rfl⟩

/-- C7: bool and null leaves write nothing to the arena — `add_value_leaf`
returns the arena unchanged with the value packed into the address's offset
field (null and false as 0, true as 1) — and extraction reproduces the same
leaf from any arena; hence any number of boolean adds contribute zero
inline scalar payload bytes. -/
theorem claim_C7 (arena : Arena) (b : Bool) (fuel : Nat) :
    addValueLeaf arena .null = .ok (arena, ⟨.null, 0⟩) ∧
    addValueLeaf arena (.bool b) = .ok (arena, ⟨.bool, if b then 1 else 0⟩) ∧
    extractValue arena (fuel + 1) ⟨.null, 0⟩ = .ok (.leaf .null) ∧
    extractValue arena (fuel + 1) ⟨.bool, if b then 1 else 0⟩ = .ok (.leaf (.bool b)) := by
  refine ⟨rfl, ?_, rfl, ?_⟩ <;> cases b <;> rfl

/-- C8: a (field, value) add with field id 65535 succeeds (whenever the
value itself encodes) and appends the pair to the root table; any field id
of 65536 or more fails with the field-id overflow construction error before
the value is even encoded. -/
theorem claim_C8 :
    (∀ (doc : CompactDoc) (v : CValue) (arena' : Arena) (va : ValueAddr),
      addValue doc.node_data v = .ok (arena', va) →
      addFieldValue doc 65535 v = .ok ⟨arena', doc.field_values ++ [(65535, va)]⟩) ∧
    (∀ (doc : CompactDoc) (v : CValue) (fid : Nat), 65536 ≤ fid →
      addFieldValue doc fid v = .error .fieldIdOverflow) := by
  constructor
  · intro doc v arena' va h
    unfold addFieldValue
    rw [if_pos (by omega), h]
    rfl
  · intro doc v fid hf
    unfold addFieldValue
    rw [if_neg (by omega)]

/-- C8 witness: both boundary field ids on a fresh document. -/
theorem claim_C8_witness :
    (addValue (⟨[], []⟩ : CompactDoc).node_data (.leaf .null) = .ok ([], ⟨.null, 0⟩) ∧
      addFieldValue ⟨[], []⟩ 65535 (.leaf .null) = .ok ⟨[], [(65535, ⟨.null, 0⟩)]⟩) ∧
    ((65536 : Nat) ≤ 65536 ∧
      addFieldValue ⟨[], []⟩ 65536 (.leaf .null) = .error .fieldIdOverflow) :=
  ⟨⟨rfl, claim_C8.1 ⟨[], []⟩ (.leaf .null) [] ⟨.null, 0⟩ rfl⟩,
   ⟨le_refl _, claim_C8.2 ⟨[], []⟩ (.leaf .null) 65536 (le_refl _)⟩⟩

/-- C9 counterexample: the claim fails for inlined (bool/null) addresses. A
u64 add to a fresh document returns offset 0 with an 8-byte payload; the
next add, a boolean, returns offset 0 again (the packed value), which is
neither at least 0 + 8 nor a fresh offset, and it stands for a different
value. -/
theorem claim_C9_counterexample :
    addValue [] (.leaf (.u64 0)) = .ok (leBytes 8 0, ⟨.u64, 0⟩) ∧
    addValue (leBytes 8 0) (.leaf (.bool false)) = .ok (leBytes 8 0, ⟨.bool, 0⟩) ∧
    (leBytes 8 0).length = 8 ∧
    ¬((⟨.u64, 0⟩ : ValueAddr).val + 8 ≤ (⟨.bool, 0⟩ : ValueAddr).val) ∧
    (⟨.u64, 0⟩ : ValueAddr).val = (⟨.bool, 0⟩ : ValueAddr).val ∧
    RefLeaf.u64 0 ≠ RefLeaf.bool false :=
  ⟨rfl, rfl, rfl, by decide, rfl, by decide⟩

/-- C9 as amended: over every sequence of successful add-value calls,
restricted to the payload-bearing (non bool/null) addresses, each later
address's offset is at least every earlier such offset plus the byte length
of the payload stored at that earlier offset, and no arena offset is ever
reused between two payload-bearing addresses. Bool/null addresses carry an
inlined scalar in the offset field and are exempt. -/
theorem claim_C9_amended :
    ∀ (arena : Arena) (vs : List CValue) (arenaF : Arena)
      (tr : List (CValue × ValueAddr × Nat)),
      addValuesTrace arena vs = .ok (arenaF, tr) →
      List.Pairwise (fun p q => p.1.isInline = false → q.1.isInline = false →
        p.2.1.val + (p.2.2 - p.2.1.val) ≤ q.2.1.val ∧ p.2.1.val ≠ q.2.1.val) tr := by
  intro arena vs
  induction vs generalizing arena with
  | nil =>
    intro arenaF tr h
    simp only [addValuesTrace] at h
    obtain ⟨h1, h2⟩ := Prod.mk.injEq .. ▸ (Except.ok.inj h)
    subst h2
    exact List.Pairwise.nil
  | cons v vs ih =>
    intro arenaF tr h
    rw [addValuesTrace] at h
    cases haV : addValue arena v with
    | error err => rw [haV] at h; exact absurd h (by simp [Bind.bind, Except.bind])
    | ok pr =>
      obtain ⟨arena1, a⟩ := pr
      rw [haV] at h
      simp only [Bind.bind, Except.bind] at h
      cases haT : addValuesTrace arena1 vs with
      | error err => rw [haT] at h; exact absurd h (by simp [Bind.bind, Except.bind])
      | ok prT =>
        obtain ⟨arenaF', rest⟩ := prT
        rw [haT] at h
        simp only at h
        obtain ⟨h1, h2⟩ := Prod.mk.injEq .. ▸ (Except.ok.inj h)
        subst h1; subst h2
        rw [List.pairwise_cons]
        constructor
        · intro q hq hni1 hni2
          have hspec := ((addValuesTrace_spec vs arena1 arenaF' rest haT).2 q hq).1 hni2
          have hpos := addValue_pos arena v arena1 a haV hni1
          show a.val + (arena1.length - a.val) ≤ q.2.1.val ∧ a.val ≠ q.2.1.val
          omega
        · exact ih arena1 arenaF' rest haT

/-- C9 witness: the amended pairwise property holds on a concrete two-add
trace. -/
theorem claim_C9_witness :
    ∃ pr, addValuesTrace [] [CValue.leaf (.u64 3), CValue.leaf (.str [7])] = .ok pr ∧
      List.Pairwise (fun p q => p.1.isInline = false → q.1.isInline = false →
        p.2.1.val + (p.2.2 - p.2.1.val) ≤ q.2.1.val ∧ p.2.1.val ≠ q.2.1.val) pr.2 := by
  cases h : addValuesTrace ([] : Arena) [CValue.leaf (.u64 3), CValue.leaf (.str [7])] with
  | error e =>
    have hok : (addValuesTrace ([] : Arena)
        [CValue.leaf (.u64 3), CValue.leaf (.str [7])]).toOption.isSome = true := by decide
    rw [h] at hok
    simp [Except.toOption] at hok
  | ok pr =>
    exact ⟨pr, rfl, claim_C9_amended [] _ pr.1 pr.2 (by rw [h])⟩

/-- C10: for a document with `doc + 1` in bounds of a monotone offset column,
`get_first_val` returns `None` exactly when `num_vals(doc)` is 0, and
otherwise returns the value column's entry at `range(doc).start`, which is
the head of `get_vals(doc)`. -/
theorem claim_C10 (off valsF : Nat → Nat) (numDocs doc : Nat)
    (hm : MonoUpTo off numDocs) (hdoc : doc + 1 ≤ numDocs) :
    (getFirstVal off valsF (off numDocs) doc = none ↔ mvNumVals off doc = 0) ∧
    (∀ v, getFirstVal off valsF (off numDocs) doc = some v →
      v = valsF (off doc) ∧ (getVals off valsF doc).head? = some v) := by
  unfold getFirstVal mvNumVals mvRange ffGetVal
  by_cases hemp : off (doc + 1) ≤ off doc
  · rw [if_pos hemp]
    constructor
    · constructor
      · intro _; omega
      · intro _; rfl
    · intro v hv
      exact absurd hv (by simp)
  · rw [if_neg hemp]
    push_neg at hemp
    have hlt : off doc < off numDocs :=
      lt_of_lt_of_le hemp (monoUpTo_le off numDocs hm (doc + 1) numDocs hdoc (le_refl _))
    rw [if_pos hlt]
    constructor
    · constructor
      · intro hc; exact absurd hc (by simp)
      · intro hc; omega
    · intro v hv
      have hv' : valsF (off doc) = v := by injection hv
      subst hv'
      refine ⟨rfl, ?_⟩
      unfold getVals mvNumVals mvRange
      have hlen : off (doc + 1) - off doc = (off (doc + 1) - off doc - 1) + 1 := by omega
      rw [hlen, List.range_succ_eq_map]
      simp

/-- C10 witness: identity offset column with two documents. -/
theorem claim_C10_witness :
    MonoUpTo id 2 ∧ (0 + 1 : Nat) ≤ 2 ∧
      (getFirstVal id (fun i => i * 10) (id 2) 0 = none ↔ mvNumVals id 0 = 0) :=
  ⟨fun i _ => Nat.le_succ i, by decide,
    (claim_C10 id (fun i => i * 10) 2 0 (fun i _ => Nat.le_succ i) (by decide)).1⟩

end Tantivy
